import Mathlib

/-!
Verification development for the Kukaj video downloader.

The Python sources `kukaj_downloader.py` and `app.py` are shallowly embedded
below.  Conventions used throughout:

* Python byte strings are `List Nat`; file contents are the concatenation of
  the byte strings written to the file.
* Python string operations (`in`, `lower`, `split`, `strip`, `startswith`)
  are embedded by executable Lean functions with the same semantics on the
  ASCII strings handled by the program.
* `urllib.parse.urlparse`/`urljoin` are embedded following the CPython
  implementation (scheme/netloc/params/query/fragment splitting, RFC 3986
  relative-reference merging with dot-segment removal).
* Percentage computations that Python performs in floating point
  (`int(a / b * 100)`, `int(n * 1.2)`) are embedded as the natural-number
  divisions `a * 100 / b` and `n * 12 / 10`; on every concrete input used in
  a theorem below the floating-point value and the integer value coincide.
* Browser interaction is embedded as an explicit environment: each network
  listener is a pure state transformer, and each navigation or wait is a
  point in the environment that may deliver network events and may raise.
-/

namespace Kukaj

/-- Contiguous-sublist check, structurally recursive on the haystack. -/
def infixCheck (n : List Char) : List Char → Bool
  | [] => n.isEmpty
  | c :: t => n.isPrefixOf (c :: t) || infixCheck n t

/-- Python substring test: `sub in s`. -/
def containsSub (s sub : String) : Bool := infixCheck sub.data s.data

/-- Python `str.startswith`. -/
def pyStartsWith (s pre : String) : Bool := pre.data.isPrefixOf s.data

/-- Python `str.lower()` (ASCII). -/
def pyLower (s : String) : String := String.mk (s.data.map Char.toLower)

/-- Python `str.upper()` (ASCII). -/
def pyUpper (s : String) : String := String.mk (s.data.map Char.toUpper)

/-- Python `list(dict.fromkeys(l))`: deduplicate keeping first occurrences. -/
def pydedup (l : List String) : List String :=
  l.foldl (fun acc u => if acc.contains u then acc else acc ++ [u]) []

theorem pydedup_foldl_nodup (l : List String) (acc : List String)
    (h : acc.Nodup) :
    (l.foldl (fun acc u => if acc.contains u then acc else acc ++ [u]) acc).Nodup := by
  induction l generalizing acc with
  | nil => simpa using h
  | cons x xs ih =>
    simp only [List.foldl_cons]
    by_cases hx : acc.contains x
    · simp only [hx, if_pos]
      exact ih acc h
    · simp only [hx]
      refine ih _ ?_
      have hmem : x ∉ acc := by
        intro hc
        exact hx (List.elem_eq_true_of_mem hc)
      simp [List.nodup_append, h, hmem]

theorem pydedup_nodup (l : List String) : (pydedup l).Nodup :=
  pydedup_foldl_nodup l [] List.nodup_nil

/-- Strip a given character from both ends of a string (Python `s.strip(c)`). -/
def pyStripChar (c : Char) (s : String) : String :=
  String.mk (((s.data.dropWhile (· = c)).reverse.dropWhile (· = c)).reverse)

def splitOnCharAux (sep : Char) : List Char → List Char → List (List Char)
  | [], acc => [acc.reverse]
  | c :: rest, acc =>
    if c = sep then acc.reverse :: splitOnCharAux sep rest []
    else splitOnCharAux sep rest (c :: acc)

/-- Python `s.split(sep)` for a one-character separator: keeps empty fields
and `"".split(sep) = [""]`. -/
def pySplitChar (sep : Char) (s : String) : List String :=
  (splitOnCharAux sep s.data []).map String.mk

/-- Join with a one-character separator (Python `sep.join(l)`). -/
def intercalateChar (sep : Char) : List String → String
  | [] => ""
  | [x] => x
  | x :: y :: xs => x ++ String.mk [sep] ++ intercalateChar sep (y :: xs)

/-- The trailing path segments used for display and file names:
`urlparse(url).path.strip('/').split('/')`. -/
def pathParts (path : String) : List String := pySplitChar '/' (pyStripChar '/' path)

/-! ## `urllib.parse` embedding

`pyUrlparse` follows CPython `urlparse`: optional scheme (letter followed by
letters/digits/`+-.` before the first `:`), `//`-introduced netloc running to
the first `/`, `?` or `#`, then fragment at the first `#`, query at the first
`?`, and params split off the last path segment at `;`. -/

structure UrlParts where
  scheme : String
  netloc : String
  path : String
  params : String
  query : String
  fragment : String
deriving Repr, DecidableEq

def schemeChar (c : Char) : Bool :=
  c.isAlpha || c.isDigit || c = '+' || c = '-' || c = '.'

/-- Index of the last occurrence of a character. -/
def lastIdxOf (c : Char) (l : List Char) : Option Nat :=
  match l.reverse.findIdx? (· = c) with
  | none => none
  | some i => some (l.length - 1 - i)

/-- CPython `_splitparams`: split `;params` off the last path segment. -/
def pySplitparams (p : List Char) : List Char × List Char :=
  if p.contains '/' then
    match lastIdxOf '/' p with
    | none => (p, [])
    | some j =>
      match (p.drop j).findIdx? (· = ';') with
      | none => (p, [])
      | some k => (p.take (j + k), p.drop (j + k + 1))
  else
    match p.findIdx? (· = ';') with
    | none => (p, [])
    | some i => (p.take i, p.drop (i + 1))

def usesParams : List String :=
  ["", "ftp", "hdl", "prospero", "http", "imap", "https", "shttp", "rtsp",
   "rtspu", "sip", "sips", "mms", "sftp", "tel"]

def usesRelative : List String :=
  ["", "ftp", "http", "gopher", "nntp", "imap", "wais", "file", "https",
   "shttp", "mms", "prospero", "rtsp", "rtspu", "sftp", "svn", "svn+ssh",
   "ws", "wss"]

def usesNetloc : List String :=
  ["", "ftp", "http", "gopher", "nntp", "telnet", "imap", "wais", "file",
   "mms", "https", "shttp", "snews", "prospero", "rtsp", "rtspu", "rsync",
   "svn", "svn+ssh", "sftp", "nfs", "git", "git+ssh", "ws", "wss",
   "itms-services"]

/-- CPython `urlparse(url, scheme=dflt)`. -/
def pyUrlparse (url : String) (dflt : String) : UrlParts :=
  let l := url.data
  let schemeRest : List Char × List Char :=
    match l.findIdx? (· = ':') with
    | some i =>
      if 0 < i ∧ (l.headD ' ').isAlpha ∧ (l.take i).all schemeChar then
        ((l.take i).map Char.toLower, l.drop (i + 1))
      else (dflt.data, l)
    | none => (dflt.data, l)
  let scheme := schemeRest.1
  let rest0 := schemeRest.2
  let netlocRest : List Char × List Char :=
    if rest0.take 2 = ['/', '/'] then
      let nl := (rest0.drop 2).takeWhile (fun c => c ≠ '/' ∧ c ≠ '?' ∧ c ≠ '#')
      (nl, (rest0.drop 2).drop nl.length)
    else ([], rest0)
  let netloc := netlocRest.1
  let rest1 := netlocRest.2
  let fragSplit : List Char × List Char :=
    let s := rest1.span (· ≠ '#')
    match s.2 with
    | [] => (s.1, [])
    | _ :: t => (s.1, t)
  let rest2 := fragSplit.1
  let fragment := fragSplit.2
  let querySplit : List Char × List Char :=
    let s := rest2.span (· ≠ '?')
    match s.2 with
    | [] => (s.1, [])
    | _ :: t => (s.1, t)
  let rest3 := querySplit.1
  let query := querySplit.2
  let pp : List Char × List Char :=
    if usesParams.contains (String.mk scheme) ∧ rest3.contains ';' then
      pySplitparams rest3
    else (rest3, [])
  { scheme := String.mk scheme, netloc := String.mk netloc,
    path := String.mk pp.1, params := String.mk pp.2,
    query := String.mk query, fragment := String.mk fragment }

/-- CPython `urlunsplit`. -/
def pyUrlunsplit (scheme netloc url query fragment : String) : String :=
  let url :=
    if netloc ≠ "" ∨ (url ≠ "" ∧ url.data.take 2 = ['/', '/']) then
      let url := if url ≠ "" ∧ url.data.take 1 ≠ ['/'] then "/" ++ url else url
      "//" ++ netloc ++ url
    else url
  let url := if scheme ≠ "" then scheme ++ ":" ++ url else url
  let url := if query ≠ "" then url ++ "?" ++ query else url
  if fragment ≠ "" then url ++ "#" ++ fragment else url

/-- CPython `urlunparse`. -/
def pyUrlunparse (p : UrlParts) : String :=
  let url := if p.params ≠ "" then p.path ++ ";" ++ p.params else p.path
  pyUrlunsplit p.scheme p.netloc url p.query p.fragment

/-- Keep the first and last element, drop empty strings in between
(CPython `segments[1:-1] = filter(None, segments[1:-1])`). -/
def filterMiddleEmpties : List String → List String
  | [] => []
  | [x] => [x]
  | x :: xs => x :: ((xs.dropLast.filter (fun s => s ≠ "")) ++ xs.drop (xs.length - 1))

/-- CPython `urljoin(base, url)`: RFC 3986 relative-reference resolution with
dot-segment removal. -/
def pyUrljoin (base url : String) : String :=
  if base = "" then url
  else if url = "" then base
  else
    let b := pyUrlparse base ""
    let r := pyUrlparse url b.scheme
    if r.scheme ≠ b.scheme ∨ ¬ usesRelative.contains r.scheme then url
    else if usesNetloc.contains r.scheme ∧ r.netloc ≠ "" then pyUrlunparse r
    else
      let netloc := if usesNetloc.contains r.scheme then b.netloc else r.netloc
      if r.path = "" ∧ r.params = "" then
        let query := if r.query = "" then b.query else r.query
        pyUrlunparse { scheme := r.scheme, netloc := netloc, path := b.path,
                       params := b.params, query := query, fragment := r.fragment }
      else
        let baseParts := pySplitChar '/' b.path
        let baseParts :=
          if baseParts.getLast? ≠ some "" then baseParts.dropLast else baseParts
        let segments :=
          if pyStartsWith r.path "/" then pySplitChar '/' r.path
          else filterMiddleEmpties (baseParts ++ pySplitChar '/' r.path)
        let resolved := segments.foldl
          (fun acc seg =>
            if seg = ".." then acc.dropLast
            else if seg = "." then acc
            else acc ++ [seg]) []
        let resolved :=
          if segments.getLast? = some "." ∨ segments.getLast? = some ".." then
            resolved ++ [""]
          else resolved
        let path := intercalateChar '/' resolved
        let path := if path = "" then "/" else path
        pyUrlunparse { scheme := r.scheme, netloc := netloc, path := path,
                       params := r.params, query := r.query, fragment := r.fragment }

/-! ## `normalize_kukaj_url` (claim C3) -/

theorem strDataEq {a b : String} (h : a.data = b.data) : a = b := by
  cases a; cases b; exact congrArg String.mk h

theorem strDataAppend (a b : String) : (a ++ b).data = a.data ++ b.data := by
  cases a; cases b; rfl

theorem exists_of_isPrefixOf {α : Type} [DecidableEq α] :
    ∀ (p l : List α), p.isPrefixOf l = true → ∃ t, l = p ++ t
  | [], l, _ => ⟨l, rfl⟩
  | a :: p, [], h => by simp [List.isPrefixOf] at h
  | a :: p, b :: l, h => by
    simp only [List.isPrefixOf, Bool.and_eq_true, beq_iff_eq] at h
    obtain ⟨t, ht⟩ := exists_of_isPrefixOf p l h.2
    exact ⟨t, by simp [h.1, ht]⟩

/-- The domain-family matcher of `normalize_kukaj_url`, embedded from the
regex `^(.*\.)?(kukaj\.)([a-z]+)$`: the netloc must end in `kukaj.<tld>` with
a nonempty all-lowercase ASCII tld, preceded by nothing or by a subdomain part
ending in a dot (the tld is the segment after the last dot, so the
decomposition is unique and this scan matches the regex).  Returns group 1
(the subdomain part, possibly empty) and group 3 (the tld). -/
def kukajDomainMatch (netloc : String) : Option (String × String) :=
  match netloc.data.reverse.dropWhile Char.isLower with
  | c :: r2 =>
    if c = '.' ∧ netloc.data.reverse.takeWhile Char.isLower ≠ [] ∧
        ("kukaj".data.reverse.isPrefixOf r2) ∧
        ((r2.drop 5) = [] ∨ (r2.drop 5).head? = some '.') then
      some (String.mk (r2.drop 5).reverse,
        String.mk (netloc.data.reverse.takeWhile Char.isLower).reverse)
    else none
  | [] => none

/-- `normalize_kukaj_url` from `kukaj_downloader.py`: rewrite
`(sub.)kukaj.<tld>` hosts to `(sub.)kukaj.fi`, rebuilding the URL from the
parsed scheme, path, query and fragment. -/
def normalize_kukaj_url (url : String) : String × Bool :=
  let parsed := pyUrlparse url ""
  if containsSub parsed.netloc "kukaj." then
    match kukajDomainMatch parsed.netloc with
    | some (sub, tld) =>
      if tld ≠ "fi" then
        let nl := sub ++ "kukaj.fi"
        let u0 := parsed.scheme ++ "://" ++ nl ++ parsed.path
        let u1 := if parsed.query ≠ "" then u0 ++ "?" ++ parsed.query else u0
        let u2 := if parsed.fragment ≠ "" then u1 ++ "#" ++ parsed.fragment else u1
        (u2, true)
      else (url, false)
    | none => (url, false)
  else (url, false)

theorem kukajDomainMatch_sound {netloc sub tld : String}
    (h : kukajDomainMatch netloc = some (sub, tld)) :
    netloc = sub ++ "kukaj." ++ tld ∧
    (sub = "" ∨ sub.data.getLast? = some '.') ∧
    tld ≠ "" ∧ tld.data.all Char.isLower = true := by
  unfold kukajDomainMatch at h
  cases hrest : netloc.data.reverse.dropWhile Char.isLower with
  | nil => rw [hrest] at h; exact absurd h (by simp)
  | cons c r2 =>
    rw [hrest] at h
    simp only [] at h
    by_cases hcond : (c = '.' ∧ netloc.data.reverse.takeWhile Char.isLower ≠ [] ∧
        ("kukaj".data.reverse.isPrefixOf r2) ∧
        ((r2.drop 5) = [] ∨ (r2.drop 5).head? = some '.'))
    · rw [if_pos hcond] at h
      obtain ⟨hc, htld, hpre, hbound⟩ := hcond
      subst hc
      set A := netloc.data.reverse.takeWhile Char.isLower with hA
      have hsub : String.mk ((r2.drop 5).reverse) = sub :=
        congrArg Prod.fst (Option.some.inj h)
      have htldeq : String.mk (A.reverse) = tld :=
        congrArg Prod.snd (Option.some.inj h)
      obtain ⟨t, ht⟩ := exists_of_isPrefixOf _ _ hpre
      have hdrop : r2.drop 5 = t := by
        rw [ht]
        have h5 : ("kukaj".data.reverse).length = 5 := by decide
        rw [← h5, List.drop_left]
      have hsplit : netloc.data.reverse = A ++ ('.' :: r2) := by
        conv_lhs => rw [← List.takeWhile_append_dropWhile (p := Char.isLower)
          (l := netloc.data.reverse)]
        rw [hrest]
      have hd : netloc.data = (A ++ ('.' :: r2)).reverse := by
        have hrev := congrArg List.reverse hsplit
        simpa using hrev
      refine ⟨?_, ?_, ?_, ?_⟩
      · apply strDataEq
        rw [strDataAppend, strDataAppend, ← hsub, ← htldeq, hd, hdrop, ht]
        have hk : ("kukaj." : String).data = "kukaj".data ++ ['.'] := by decide
        have hmk1 : (String.mk (t.reverse)).data = t.reverse := rfl
        have hmk2 : (String.mk (A.reverse)).data = A.reverse := rfl
        rw [hmk1, hmk2, hk]
        simp [List.reverse_append, List.append_assoc]
      · rw [hdrop] at hbound
        rcases hbound with hb | hb
        · left
          apply strDataEq
          rw [← hsub, hdrop, hb]
          rfl
        · right
          rw [← hsub, hdrop]
          have : (t.reverse).getLast? = t.head? := List.getLast?_reverse t
          simpa [this] using hb
      · intro hcon
        apply htld
        have h0 : (String.mk (A.reverse)) = "" := by rw [htldeq, hcon]
        have h1 : A.reverse = [] := congrArg String.data h0
        simpa using h1
      · rw [← htldeq]
        have hmk : (String.mk (A.reverse)).data = A.reverse := rfl
        rw [hmk]
        simp only [List.all_eq_true]
        intro x hxmem
        have hx2 : x ∈ A := by simpa using hxmem
        rw [hA] at hx2
        exact List.mem_takeWhile_imp hx2
    · rw [if_neg hcond] at h
      exact absurd h (by simp)

theorem strAppend_assoc (a b c : String) : a ++ b ++ c = a ++ (b ++ c) := by
  apply strDataEq
  rw [strDataAppend, strDataAppend, strDataAppend, strDataAppend, List.append_assoc]

theorem strAppend_empty (a : String) : a ++ "" = a := by
  apply strDataEq
  rw [strDataAppend]
  simp [show ("" : String).data = [] from rfl]

theorem isPrefixOf_self_append : ∀ (p t : List Char), p.isPrefixOf (p ++ t) = true
  | [], t => by simp [List.isPrefixOf]
  | a :: p, t => by
    have ih := isPrefixOf_self_append p t
    simp [List.isPrefixOf, ih]

theorem infixCheck_of_parts (a m b : List Char) :
    infixCheck m (a ++ m ++ b) = true := by
  induction a with
  | nil =>
    simp only [List.nil_append]
    cases m with
    | nil => cases b <;> simp [infixCheck, List.isPrefixOf]
    | cons x xs =>
      simp only [List.cons_append, infixCheck, Bool.or_eq_true]
      left
      have h := isPrefixOf_self_append (x :: xs) b
      simpa using h
  | cons c a ih =>
    simp only [List.cons_append, infixCheck, Bool.or_eq_true]
    right
    exact ih

theorem containsSub_of_parts (a m b : String) : containsSub (a ++ m ++ b) m = true := by
  unfold containsSub
  rw [strDataAppend, strDataAppend]
  exact infixCheck_of_parts a.data m.data b.data

/-- C3: for every input address whose host matches the kukaj domain family
under a non-canonical top-level variant (the embedded regex matcher returns
the subdomain part and a tld other than `fi`), `normalize_kukaj_url` returns
the address rebuilt with the host rewritten to `sub ++ "kukaj.fi"` and the
scheme, path, query and fragment components preserved verbatim, together with
`changed = true`; for every address whose host does not match the family, or
matches it with the canonical tld `fi`, it returns the input string unchanged
with `changed = false`. -/
theorem c3_normalize_kukaj_url (url : String) :
    (∀ sub tld, kukajDomainMatch (pyUrlparse url "").netloc = some (sub, tld) →
      tld ≠ "fi" →
      (pyUrlparse url "").netloc = sub ++ "kukaj." ++ tld ∧
      (sub = "" ∨ sub.data.getLast? = some '.') ∧
      normalize_kukaj_url url =
        ((pyUrlparse url "").scheme ++ "://" ++ (sub ++ "kukaj.fi") ++
           (pyUrlparse url "").path ++
           (if (pyUrlparse url "").query ≠ "" then "?" ++ (pyUrlparse url "").query else "") ++
           (if (pyUrlparse url "").fragment ≠ "" then "#" ++ (pyUrlparse url "").fragment else ""),
         true)) ∧
    ((kukajDomainMatch (pyUrlparse url "").netloc = none ∨
        (∃ sub, kukajDomainMatch (pyUrlparse url "").netloc = some (sub, "fi"))) →
      normalize_kukaj_url url = (url, false)) := by
  constructor
  · intro sub tld hm hfi
    have hsound := kukajDomainMatch_sound hm
    have hguard : containsSub (pyUrlparse url "").netloc "kukaj." = true := by
      rw [hsound.1]
      exact containsSub_of_parts _ _ _
    refine ⟨hsound.1, hsound.2.1, ?_⟩
    simp only [normalize_kukaj_url, hguard, if_true, hm]
    rw [if_pos hfi]
    refine congrArg (fun s => (s, true)) ?_
    by_cases hq : (pyUrlparse url "").query = ""
    · by_cases hf : (pyUrlparse url "").fragment = ""
      · simp [hq, hf, strAppend_empty, strAppend_assoc]
      · simp [hq, hf, strAppend_empty, strAppend_assoc]
    · by_cases hf : (pyUrlparse url "").fragment = ""
      · simp [hq, hf, strAppend_empty, strAppend_assoc]
      · simp [hq, hf, strAppend_empty, strAppend_assoc]
  · intro h
    by_cases hguard : containsSub (pyUrlparse url "").netloc "kukaj." = true
    · simp only [normalize_kukaj_url, hguard, if_true]
      rcases h with h | ⟨sub, h⟩
      · rw [h]
      · rw [h]
        simp
    · rw [Bool.not_eq_true] at hguard
      simp only [normalize_kukaj_url, hguard]
      simp

/-- Witness for C3: a non-canonical address is rewritten with all other
components preserved, and a canonical address passes through unchanged. -/
theorem c3_witness :
    normalize_kukaj_url "https://serial.kukaj.io/show/S01E01?a=1#frag" =
      ("https://serial.kukaj.fi/show/S01E01?a=1#frag", true) ∧
    normalize_kukaj_url "https://film.kukaj.fi/matrix" =
      ("https://film.kukaj.fi/matrix", false) := by
  constructor
  · have h := (c3_normalize_kukaj_url "https://serial.kukaj.io/show/S01E01?a=1#frag").1
      "serial." "io" (by decide) (by decide)
    rw [h.2.2]
    decide
  · exact (c3_normalize_kukaj_url "https://film.kukaj.fi/matrix").2
      (Or.inr ⟨"film.", by decide⟩)

/-! ## Filename derivation and output path (claims C8, C9) -/

/-- Characters accepted by the web wrapper's sanitizer
`re.sub(r'[^\w\-_.]', '_', name)` (`\w` read over the ASCII range). -/
def filenameSafeChar (c : Char) : Bool :=
  c.isAlphanum || c = '_' || c = '-' || c = '.'

/-- `re.sub(r'[^\w\-_.]', '_', s)` from `app.py`: replace every character
outside the safe class by an underscore. -/
def pySanitize (s : String) : String :=
  String.mk (s.data.map (fun c => if filenameSafeChar c then c else '_'))

/-- Filename derivation in `kukaj_downloader.download_video` when no output
filename is supplied: for a path of at least three segments the last two
segments joined by `_`, otherwise the last segment (or `"video"` for an empty
part list), plus an extension chosen from the media URL.  The source performs
no character replacement here. -/
def deriveOutputFilename (url mediaUrl : String) : String :=
  let parts := pathParts (pyUrlparse url "").path
  let filename :=
    if parts.length ≥ 2 then
      if parts.length ≥ 3 then parts.dropLast.getLastD "" ++ "_" ++ parts.getLastD ""
      else parts.getLastD ""
    else
      if parts ≠ [] then parts.getLastD "" else "video"
  let ext := if containsSub (pyLower mediaUrl) ".mp4" then ".mp4" else ".m3u8"
  filename ++ ext

/-- Filename derivation in the MON-fallback branch of
`app.py:download_video`: last two segments joined whenever there are at least
two, then `re.sub(r'[^\w\-_.]', '_', base_name)` and the `.mp4` extension.
(The source then joins this name onto `DOWNLOADS_DIR`.) -/
def appFallbackFilename (url : String) : String :=
  let parts := pathParts (pyUrlparse url "").path
  let base :=
    if parts.length ≥ 2 then parts.dropLast.getLastD "" ++ "_" ++ parts.getLastD ""
    else
      if parts ≠ [] then parts.getLastD "" else "video"
  pySanitize base ++ ".mp4"

/-- Claim C8 as stated: the derived filename joins the last two path segments
for every multi-segment path and every non-filename-safe character in it is
replaced. -/
def c8ClaimStatement : Prop :=
  ∀ url mediaUrl,
    (∀ c ∈ (deriveOutputFilename url mediaUrl).data, filenameSafeChar c = true) ∧
    ((pathParts (pyUrlparse url "").path).length ≥ 2 →
      deriveOutputFilename url mediaUrl =
        pySanitize ((pathParts (pyUrlparse url "").path).dropLast.getLastD "" ++ "_" ++
            (pathParts (pyUrlparse url "").path).getLastD "") ++
          (if containsSub (pyLower mediaUrl) ".mp4" then ".mp4" else ".m3u8"))

/-- C8 counterexample: for the page path `/show/S01*E01` (two segments, one
unsafe character) `kukaj_downloader.download_video` derives `S01*E01.m3u8` —
it neither joins the two segments nor replaces the unsafe `*`. -/
theorem c8_counterexample : ¬ c8ClaimStatement := by
  intro h
  have h2 := (h "https://serial.kukaj.fi/show/S01*E01" "https://x/playlist.m3u8").2
    (by decide)
  exact absurd h2 (by decide)

/-- C8 amended: in `kukaj_downloader.download_video` the derived name joins
the last two segments only for paths of three or more segments, uses the bare
last segment otherwise, and performs no character replacement; the
replacement of non-filename-safe characters happens only in the web
wrapper's MON-fallback derivation, which joins the last two segments whenever
there are at least two and whose result consists of filename-safe characters
only. -/
theorem c8_filename_derivation :
    (∀ url mediaUrl,
      deriveOutputFilename url mediaUrl =
        (if (pathParts (pyUrlparse url "").path).length ≥ 3 then
            (pathParts (pyUrlparse url "").path).dropLast.getLastD "" ++ "_" ++
              (pathParts (pyUrlparse url "").path).getLastD ""
          else if pathParts (pyUrlparse url "").path ≠ [] then
            (pathParts (pyUrlparse url "").path).getLastD ""
          else "video") ++
        (if containsSub (pyLower mediaUrl) ".mp4" then ".mp4" else ".m3u8")) ∧
    (∀ s, ∀ c ∈ (pySanitize s).data, filenameSafeChar c = true) ∧
    (∀ url,
      appFallbackFilename url =
        pySanitize (if (pathParts (pyUrlparse url "").path).length ≥ 2 then
            (pathParts (pyUrlparse url "").path).dropLast.getLastD "" ++ "_" ++
              (pathParts (pyUrlparse url "").path).getLastD ""
          else if pathParts (pyUrlparse url "").path ≠ [] then
            (pathParts (pyUrlparse url "").path).getLastD ""
          else "video") ++ ".mp4" ∧
      ∀ c ∈ (appFallbackFilename url).data, filenameSafeChar c = true) := by
  have hsan : ∀ s, ∀ c ∈ (pySanitize s).data, filenameSafeChar c = true := by
    intro s c hc
    simp only [pySanitize] at hc
    obtain ⟨x, _, hfx⟩ := List.mem_map.mp hc
    by_cases hx : filenameSafeChar x = true
    · rw [if_pos hx] at hfx
      rw [← hfx]
      exact hx
    · rw [if_neg hx] at hfx
      rw [← hfx]
      decide
  refine ⟨?_, hsan, ?_⟩
  · intro url mediaUrl
    unfold deriveOutputFilename
    by_cases h3 : (pathParts (pyUrlparse url "").path).length ≥ 3
    · have h2 : (pathParts (pyUrlparse url "").path).length ≥ 2 := by omega
      simp [h2, h3]
    · by_cases h2 : (pathParts (pyUrlparse url "").path).length ≥ 2
      · have hne : pathParts (pyUrlparse url "").path ≠ [] := by
          intro hc
          rw [hc] at h2
          simp at h2
        simp [h2, h3, hne]
      · simp [h2, h3]
  · intro url
    constructor
    · rfl
    · intro c hc
      have hdata : (appFallbackFilename url).data =
          (pySanitize (if (pathParts (pyUrlparse url "").path).length ≥ 2 then
              (pathParts (pyUrlparse url "").path).dropLast.getLastD "" ++ "_" ++
                (pathParts (pyUrlparse url "").path).getLastD ""
            else if pathParts (pyUrlparse url "").path ≠ [] then
              (pathParts (pyUrlparse url "").path).getLastD ""
            else "video")).data ++ (".mp4" : String).data := by
        rw [← strDataAppend]
        rfl
      rw [hdata] at hc
      rcases List.mem_append.mp hc with hm | hm
      · exact hsan _ c hm
      · have hall : ∀ x ∈ (".mp4" : String).data, filenameSafeChar x = true := by decide
        exact hall c hm

/-- Witness for C8 amended: concrete derivations through the theorem. -/
theorem c8_witness :
    deriveOutputFilename "https://serial.kukaj.fi/show/S01E01" "https://x/p.m3u8" =
      "S01E01" ++ ".m3u8" ∧ filenameSafeChar '_' = true := by
  constructor
  · have h := c8_filename_derivation.1 "https://serial.kukaj.fi/show/S01E01"
      "https://x/p.m3u8"
    rw [h]
    decide
  · exact c8_filename_derivation.2.1 "a*b" '_' (by decide)

/-- `os.path.join` for two components. -/
def os_path_join (a b : String) : String :=
  if pyStartsWith b "/" then b
  else if a = "" ∨ a.data.getLast? = some '/' then a ++ b
  else a ++ "/" ++ b

/-- `os.path.basename`: everything after the last slash. -/
def os_path_basename (p : String) : String :=
  String.mk ((p.data.reverse.takeWhile (fun c => c ≠ '/')).reverse)

/-- `os.path.join(os.getcwd(), 'downloads')` from
`kukaj_downloader.download_video`. -/
def downloadsDir (cwd : String) : String := os_path_join cwd "downloads"

/-- The output-path fixup in `kukaj_downloader.download_video`: a name that
does not already start with the downloads directory is reduced to its
basename and placed inside it. -/
def resolveOutputPath (cwd name : String) : String :=
  if pyStartsWith name (downloadsDir cwd) then name
  else os_path_join (downloadsDir cwd) (os_path_basename name)

theorem basename_no_slash (name : String) :
    ∀ c ∈ (os_path_basename name).data, c ≠ '/' := by
  intro c hc
  simp only [os_path_basename] at hc
  have hc2 : c ∈ name.data.reverse.takeWhile (fun c => c ≠ '/') := by
    simpa using hc
  have := List.mem_takeWhile_imp hc2
  simpa using this

theorem downloadsDir_getLast (cwd : String) :
    (downloadsDir cwd).data.getLast? = some 's' ∧ downloadsDir cwd ≠ "" := by
  have hne : ("downloads" : String).data ≠ [] := by decide
  have h1 : ∀ (x : List Char), (x ++ ("downloads" : String).data).getLast? = some 's' := by
    intro x
    rw [List.getLast?_append_of_ne_nil x hne]
    decide
  unfold downloadsDir os_path_join
  have hs : pyStartsWith "downloads" "/" = false := by decide
  rw [hs]
  simp only [Bool.false_eq_true, if_false]
  by_cases hcwd : cwd = "" ∨ cwd.data.getLast? = some '/'
  · rw [if_pos hcwd]
    refine ⟨?_, ?_⟩
    · rw [strDataAppend]
      exact h1 cwd.data
    · intro hcon
      have h2 := congrArg String.data hcon
      rw [strDataAppend] at h2
      have h3 : cwd.data ++ ("downloads" : String).data = [] := by simpa using h2
      exact hne (List.append_eq_nil.mp h3).2
  · rw [if_neg hcwd]
    refine ⟨?_, ?_⟩
    · rw [strDataAppend]
      exact h1 (cwd ++ "/").data
    · intro hcon
      have h2 := congrArg String.data hcon
      rw [strDataAppend] at h2
      have h3 : (cwd ++ "/").data ++ ("downloads" : String).data = [] := by
        simpa using h2
      exact hne (List.append_eq_nil.mp h3).2

/-- C9: the output path passed to the download helpers is the caller's string
when it already starts (as a string prefix) with the downloads directory, and
otherwise is exactly `<cwd>/downloads/<basename>` with a slash-free basename
— i.e. a path directly inside the downloads directory. -/
theorem c9_output_path_confinement (cwd name : String) :
    (pyStartsWith name (downloadsDir cwd) = true → resolveOutputPath cwd name = name) ∧
    (pyStartsWith name (downloadsDir cwd) = false →
      resolveOutputPath cwd name =
        downloadsDir cwd ++ "/" ++ os_path_basename name ∧
      ∀ c ∈ (os_path_basename name).data, c ≠ '/') := by
  constructor
  · intro h
    simp [resolveOutputPath, h]
  · intro h
    refine ⟨?_, basename_no_slash name⟩
    unfold resolveOutputPath
    rw [h]
    simp only [Bool.false_eq_true, if_false]
    unfold os_path_join
    have hb : pyStartsWith (os_path_basename name) "/" = false := by
      cases hd : (os_path_basename name).data with
      | nil =>
        unfold pyStartsWith
        rw [hd]
        decide
      | cons c t =>
        have hcne : c ≠ '/' := basename_no_slash name c (by rw [hd]; exact List.mem_cons_self c t)
        have hb2 : (('/' : Char) == c) = false := beq_eq_false_iff_ne.mpr (Ne.symm hcne)
        unfold pyStartsWith
        rw [hd]
        simp [show ("/" : String).data = ['/'] from rfl, List.isPrefixOf, hb2]
    rw [hb]
    simp only [Bool.false_eq_true, if_false]
    have hdl := downloadsDir_getLast cwd
    rw [if_neg]
    intro hcon
    rcases hcon with hcon | hcon
    · exact hdl.2 hcon
    · rw [hdl.1] at hcon
      exact absurd (Option.some.inj hcon) (by decide)

/-- Witness for C9: both branches at concrete inputs. -/
theorem c9_witness :
    resolveOutputPath "/srv/app" "video.mp4" = "/srv/app/downloads" ++ "/" ++ "video.mp4" ∧
    resolveOutputPath "/srv/app" "/srv/app/downloads_evil/x.mp4" =
      "/srv/app/downloads_evil/x.mp4" := by
  constructor
  · have h := (c9_output_path_confinement "/srv/app" "video.mp4").2 (by decide)
    rw [h.1]
    decide
  · exact (c9_output_path_confinement "/srv/app" "/srv/app/downloads_evil/x.mp4").1
      (by decide)

/-! ## Playlist download and segment reconstruction (claim C4) -/

/-- An m3u8 playlist segment; `uri` may be missing. -/
structure M3U8Segment where
  uri : Option String
deriving Repr, DecidableEq

/-- Segment URL resolution in `download_with_python`:
`if not segment_url.startswith('http'): segment_url = urljoin(m3u8_url, segment_url)`. -/
def resolveSegmentUrl (m3u8Url u : String) : String :=
  if pyStartsWith u "http" then u else pyUrljoin m3u8Url u

/-- One loop iteration of `download_with_python`: segments without a URI are
skipped, request errors are skipped (`continue`), successful bodies are
appended to `segments_data`. -/
def segStep (m3u8Url : String) (fetch : String → Option (List Nat))
    (acc : List (List Nat)) (seg : M3U8Segment) : List (List Nat) :=
  match seg.uri with
  | none => acc
  | some u =>
    if u = "" then acc
    else
      match fetch (resolveSegmentUrl m3u8Url u) with
      | none => acc
      | some bs => acc ++ [bs]

/-- `KukajDownloader.download_with_python`, embedded over an environment:
`playlist` is the result of `m3u8.load` (`none` models a load exception,
caught by the outer handler and turned into `False`); `fetch` maps a segment
URL to its response body (`none` models a request error).  Returns the bytes
written to the output file on success (`True`), `none` on failure. -/
def download_with_python (m3u8Url : String) (playlist : Option (List M3U8Segment))
    (fetch : String → Option (List Nat)) : Option (List Nat) :=
  match playlist with
  | none => none
  | some segs =>
    if segs = [] then none
    else
      let datas := segs.foldl (segStep m3u8Url fetch) []
      if datas = [] then none else some datas.join

inductive M3u8DlResult
  | viaFfmpeg
  | viaPython (file : Option (List Nat))
deriving Repr, DecidableEq

/-- `download_m3u8_file`: FFmpeg first; Python fallback when the FFmpeg
invocation fails or the binary is unavailable (`download_with_ffmpeg` returns
`False` in both cases, modelled by `ffmpegOk = false`). -/
def download_m3u8_file (ffmpegOk : Bool) (m3u8Url : String)
    (playlist : Option (List M3U8Segment)) (fetch : String → Option (List Nat)) :
    M3u8DlResult :=
  if ffmpegOk then .viaFfmpeg
  else .viaPython (download_with_python m3u8Url playlist fetch)

/-- The bodies of the successfully fetched segments, in playlist order
(URI-less segments and failed requests omitted). -/
def fetchedSegmentBytes (m3u8Url : String) (segs : List M3U8Segment)
    (fetch : String → Option (List Nat)) : List (List Nat) :=
  segs.filterMap (fun seg =>
    match seg.uri with
    | none => none
    | some u => if u = "" then none else fetch (resolveSegmentUrl m3u8Url u))

theorem segs_foldl_eq (m3u8Url : String) (fetch : String → Option (List Nat)) :
    ∀ (segs : List M3U8Segment) (acc : List (List Nat)),
      segs.foldl (segStep m3u8Url fetch) acc =
        acc ++ fetchedSegmentBytes m3u8Url segs fetch := by
  intro segs
  induction segs with
  | nil => intro acc; simp [fetchedSegmentBytes]
  | cons seg rest ih =>
    intro acc
    simp only [List.foldl_cons, fetchedSegmentBytes, List.filterMap_cons]
    cases hu : seg.uri with
    | none =>
      rw [show segStep m3u8Url fetch acc seg = acc by simp [segStep, hu]]
      simpa [fetchedSegmentBytes] using ih acc
    | some u =>
      by_cases hue : u = ""
      · rw [show segStep m3u8Url fetch acc seg = acc by simp [segStep, hu, hue]]
        simpa [fetchedSegmentBytes, hue] using ih acc
      · cases hf : fetch (resolveSegmentUrl m3u8Url u) with
        | none =>
          rw [show segStep m3u8Url fetch acc seg = acc by simp [segStep, hu, hue, hf]]
          simpa [fetchedSegmentBytes, hue, hf] using ih acc
        | some bs =>
          rw [show segStep m3u8Url fetch acc seg = acc ++ [bs] by
            simp [segStep, hu, hue, hf]]
          rw [ih (acc ++ [bs])]
          simp [fetchedSegmentBytes, hue, hf]

/-- Claim C4 as stated: when the in-process fallback reports success, the
output file equals the concatenation, in playlist order, of the bytes of
every segment referenced by the playlist (so every referenced segment's fetch
must have succeeded), and the file is non-empty. -/
def c4ClaimStatement : Prop :=
  ∀ m3u8Url segs fetch f,
    download_with_python m3u8Url (some segs) fetch = some f →
    (∀ seg ∈ segs, ∀ u, seg.uri = some u → u ≠ "" →
      ∃ b, fetch (resolveSegmentUrl m3u8Url u) = some b) ∧
    f = (fetchedSegmentBytes m3u8Url segs fetch).join ∧
    f ≠ []

/-- C4 counterexample: with a two-segment playlist whose second (relative)
segment request fails, `download_with_python` still reports success and
writes only the first segment's bytes; and with a single segment whose body
is empty it reports success with an empty file. -/
theorem c4_counterexample :
    ¬ c4ClaimStatement ∧
    download_with_python "http://h/p/list.m3u8"
      (some [⟨some "http://h/a.ts"⟩])
      (fun _ => some []) = some [] := by
  constructor
  · intro h
    have h1 := h "http://h/p/list.m3u8"
      [⟨some "http://h/a.ts"⟩, ⟨some "seg2.ts"⟩]
      (fun u => if u = "http://h/a.ts" then some [1, 2] else none)
      [1, 2] (by decide)
    obtain ⟨hb, hfetch⟩ := h1.1 ⟨some "seg2.ts"⟩ (by decide) "seg2.ts" rfl (by decide)
    have hnone : (fun u => if u = "http://h/a.ts" then some [1, 2]
          else (none : Option (List Nat)))
        (resolveSegmentUrl "http://h/p/list.m3u8" "seg2.ts") = none := by decide
    rw [hnone] at hfetch
    exact absurd hfetch (by simp)
  · decide

/-- C4 amended: when the external transcoder invocation fails or its binary
is unavailable, `download_m3u8_file` runs the in-process
segment-reconstruction fallback; when that fallback reports success, the
output file's bytes equal the concatenation, in playlist order, of the bytes
of every *successfully fetched* segment (URI-less segments and segments whose
request failed are skipped), and the file is non-empty provided at least one
fetched segment body is non-empty. -/
theorem c4_fallback_reconstruction :
    (∀ (m3u8Url : String) (playlist : Option (List M3U8Segment))
        (fetch : String → Option (List Nat)),
      download_m3u8_file false m3u8Url playlist fetch =
        .viaPython (download_with_python m3u8Url playlist fetch)) ∧
    (∀ m3u8Url segs fetch f,
      download_with_python m3u8Url (some segs) fetch = some f →
      f = (fetchedSegmentBytes m3u8Url segs fetch).join ∧
      ((∃ b ∈ fetchedSegmentBytes m3u8Url segs fetch, b ≠ []) → f ≠ [])) := by
  constructor
  · intro m3u8Url playlist fetch
    rfl
  · intro m3u8Url segs fetch f hdl
    simp only [download_with_python] at hdl
    by_cases hsegs : segs = []
    · rw [if_pos hsegs] at hdl
      exact absurd hdl (by simp)
    · rw [if_neg hsegs] at hdl
      rw [segs_foldl_eq m3u8Url fetch segs []] at hdl
      simp only [List.nil_append] at hdl
      by_cases hdat : fetchedSegmentBytes m3u8Url segs fetch = []
      · rw [if_pos hdat] at hdl
        exact absurd hdl (by simp)
      · rw [if_neg hdat] at hdl
        have hf : f = (fetchedSegmentBytes m3u8Url segs fetch).join :=
          (Option.some.inj hdl).symm
        refine ⟨hf, ?_⟩
        rintro ⟨b, hbmem, hbne⟩ hfnil
        rw [hf] at hfnil
        exact hbne (List.join_eq_nil_iff.mp hfnil b hbmem)

/-- Witness for C4 amended: a concrete playlist with one absolute and one
relative segment reconstructed through the theorem. -/
theorem c4_witness :
    download_m3u8_file false "http://h/p/list.m3u8"
      (some [⟨some "http://h/a.ts"⟩, ⟨some "seg2.ts"⟩])
      (fun u => if u = "http://h/a.ts" then some [1, 2]
                else if u = "http://h/p/seg2.ts" then some [3] else none) =
      .viaPython (some ([1, 2] ++ [3])) := by
  have h1 := c4_fallback_reconstruction.1 "http://h/p/list.m3u8"
    (some [⟨some "http://h/a.ts"⟩, ⟨some "seg2.ts"⟩])
    (fun u => if u = "http://h/a.ts" then some [1, 2]
              else if u = "http://h/p/seg2.ts" then some [3] else none)
  rw [h1]
  have h2 := (c4_fallback_reconstruction.2 "http://h/p/list.m3u8"
    [⟨some "http://h/a.ts"⟩, ⟨some "seg2.ts"⟩]
    (fun u => if u = "http://h/a.ts" then some [1, 2]
              else if u = "http://h/p/seg2.ts" then some [3] else none)
    ([1, 2] ++ [3]) (by decide)).1
  decide

/-! ## Progress reporting (claim C5)

Three progress emitters from `app.py`: the FFmpeg progress-channel reader of
`_download_with_progress_mp4`, the chunked streamer `_download_direct_mp4`,
and the per-segment reporter `download_with_python`.  Percentages are listed
in emission order. -/

/-- `_download_direct_mp4`: the emitted percentage sequence.  The initial
`(0%)` line, then one entry per chunk whose percentage reaches
`last_pct + 5`, then the final `(100%)` line.  Chunk sizes are bytes per
`iter_content` chunk (`0` models a falsy empty chunk, skipped); `total` is
the declared `content-length` (`0` when absent, which suppresses percentage
arithmetic). -/
def directStep (total : Nat) (st : Nat × Int × List Nat) (ch : Nat) :
    Nat × Int × List Nat :=
  if ch ≠ 0 then
    if total ≠ 0 then
      let dl2 := st.1 + ch
      let pct := dl2 * 100 / total
      if (pct : Int) ≥ st.2.1 + 5 then (dl2, (pct : Int), st.2.2 ++ [pct])
      else (dl2, st.2.1, st.2.2)
    else st
  else st

def directMp4Emits (total : Nat) (chunks : List Nat) : List Nat :=
  let loopState := chunks.foldl (directStep total) (0, (-1 : Int), ([] : List Nat))
  0 :: loopState.2.2 ++ [100]

/-- `app.py:download_with_python`: before fetching segment `i` of `n` the
percentage `int(i / total_segments * 100)` is emitted; `k` is the number of
iterations reached before the loop ended (early on a request error). -/
def segmentProgressEmits (n k : Nat) : List Nat :=
  (List.range k).map (fun i => i * 100 / n)

inductive EmitTag
  | increase
  | cadence
  | timeBased
  | estimate
  | complete
deriving Repr, DecidableEq

structure FPState where
  total : Nat
  cf : Nat
  last : Int
  emits : List (Nat × EmitTag)
  stopped : Bool
deriving Repr, DecidableEq

def digitsVal (ds : List Char) : Nat :=
  ds.foldl (fun n c => n * 10 + (c.toNat - 48)) 0

/-- `re.search(r'frame=\s*(\d+)', line)` on a line known to start with
`frame=`: skip whitespace after the prefix and read the digit run. -/
def parseFrameNum (line : String) : Option Nat :=
  let rest := (line.data.drop 6).dropWhile Char.isWhitespace
  let digits := rest.takeWhile Char.isDigit
  if digits = [] then none else some (digitsVal digits)

/-- `int(line.split('=')[1])` for the `out_time_ms=` branch; the `ValueError`
handler makes unparsable values a no-op, and negative values never emit (they
are below `last_emitted`), so both are modelled as `none`. -/
def parseAfterEq (line : String) : Option Nat :=
  match pySplitChar '=' line with
  | _ :: second :: _ =>
    if second.data ≠ [] ∧ second.data.all Char.isDigit then some (digitsVal second.data)
    else none
  | _ => none

/-- One line of the FFmpeg progress-channel loop in
`_download_with_progress_mp4`.  `frame=` lines update the frame counter,
enlarge the frame-total estimate by 20 % when exceeded (`int(n * 1.2)` as
`n * 12 / 10`), and emit on every percentage increase or, failing that, every
25 frames; `out_time_ms=` lines give a secondary estimate when the duration
is known; `progress=end` emits 100 % and stops reading. -/
def fpStep (dur : Option Nat) (st : FPState) (line : String) : FPState :=
  if st.stopped then st
  else if pyStartsWith line "frame=" then
    match parseFrameNum line with
    | none => st
    | some n =>
      if st.total > 0 then
        let total2 := if n > st.total then n * 12 / 10 else st.total
        let prog := min (n * 100 / total2) 99
        if (prog : Int) > st.last then
          { st with
            cf := n
            total := total2
            last := (prog : Int)
            emits := st.emits ++ [(prog, EmitTag.increase)] }
        else if n % 25 = 0 ∧ n > 0 then
          { st with
            cf := n
            total := total2
            emits := st.emits ++ [(prog, EmitTag.cadence)] }
        else { st with cf := n, total := total2 }
      else
        if n % 50 = 0 ∧ n > 0 then
          let est := min (n * 100 / 3000) 95
          { st with
            cf := n
            last := (est : Int)
            emits := st.emits ++ [(est, EmitTag.estimate)] }
        else { st with cf := n }
  else if pyStartsWith line "out_time_ms=" then
    match dur with
    | none => st
    | some d =>
      if d > 0 then
        match parseAfterEq line with
        | none => st
        | some ms =>
          let tp := min (ms * 100 / (1000000 * d)) 99
          if (tp : Int) > st.last then
            { st with
              last := (tp : Int)
              emits := st.emits ++ [(tp, EmitTag.timeBased)] }
          else st
      else st
  else if pyStartsWith line "progress=end" then
    { st with emits := st.emits ++ [(100, EmitTag.complete)], stopped := true }
  else st

def fpRun (total : Nat) (dur : Option Nat) (lines : List String) : FPState :=
  lines.foldl (fpStep dur)
    { total := total, cf := 0, last := -1, emits := [], stopped := false }

def fpPcts (total : Nat) (dur : Option Nat) (lines : List String) : List Nat :=
  ((fpRun total dur lines).emits).map Prod.fst

/-- The percentages of the emissions other than the 25-frame cadence ones. -/
def ncPcts (es : List (Nat × EmitTag)) : List Nat :=
  (es.filter (fun e => e.2 ≠ EmitTag.cadence)).map Prod.fst

/-- Claim C5 as stated: every strategy's emitted percentage sequence is
monotonically non-decreasing within a single attempt. -/
def c5ClaimStatement : Prop :=
  (∀ total chunks, List.Chain' (· ≤ ·) (directMp4Emits total chunks)) ∧
  (∀ n k, List.Chain' (· ≤ ·) (segmentProgressEmits n k)) ∧
  (∀ total dur lines, List.Chain' (· ≤ ·) (fpPcts total dur lines))

/-- C5 counterexample: with an estimated total of 128 frames, `frame=127`
emits 99 %, then `frame=150` enlarges the total to 180 and the 25-frame
cadence re-emits 83 % — a decrease inside one transcoder attempt; and the
direct streamer emits 250 % and then the final 100 % when more bytes arrive
than the declared content length. -/
theorem c5_counterexample :
    fpPcts 128 none ["frame=127", "frame=150"] = [99, 83] ∧
    directMp4Emits 100 [50, 200] = [0, 50, 250, 100] ∧
    ¬ c5ClaimStatement := by
  refine ⟨by decide, by decide, ?_⟩
  intro h
  have h3 := h.2.2 128 none ["frame=127", "frame=150"]
  rw [show fpPcts 128 none ["frame=127", "frame=150"] = [99, 83] from by decide] at h3
  rw [List.chain'_cons] at h3
  exact absurd h3.1 (by decide)

theorem chain'_append_singleton {r : Nat → Nat → Prop} {l : List Nat} {a : Nat}
    (h : List.Chain' r l) (h2 : ∀ x ∈ l, r x a) : List.Chain' r (l ++ [a]) := by
  rw [List.chain'_append]
  refine ⟨h, List.chain'_singleton a, ?_⟩
  intro x hx y hy
  simp only [List.head?_cons, Option.mem_def, Option.some.injEq] at hy
  subst hy
  exact h2 x (List.mem_of_mem_getLast? hx)

theorem ncPcts_append (es : List (Nat × EmitTag)) (p : Nat) (tag : EmitTag) :
    ncPcts (es ++ [(p, tag)]) =
      if tag = EmitTag.cadence then ncPcts es else ncPcts es ++ [p] := by
  by_cases htag : tag = EmitTag.cadence
  · simp [ncPcts, htag]
  · simp [ncPcts, htag]

/-- Invariant of the progress-channel loop: the non-cadence percentages are
strictly increasing, and while the loop is still reading they are bounded by
`last_emitted`, which stays below 100. -/
def FPInv (st : FPState) : Prop :=
  0 < st.total ∧
  List.Chain' (· < ·) (ncPcts st.emits) ∧
  (st.stopped = false → (∀ e ∈ ncPcts st.emits, (e : Int) ≤ st.last) ∧ st.last ≤ 99)

theorem ncChain_extend {es : List (Nat × EmitTag)} {last : Int} {p : Nat}
    {tag : EmitTag} (htag : tag ≠ EmitTag.cadence)
    (hchain : List.Chain' (· < ·) (ncPcts es))
    (hb : ∀ e ∈ ncPcts es, (e : Int) ≤ last)
    (hgt : last < (p : Int)) :
    List.Chain' (· < ·) (ncPcts (es ++ [(p, tag)])) ∧
    (∀ e ∈ ncPcts (es ++ [(p, tag)]), (e : Int) ≤ (p : Int)) := by
  rw [ncPcts_append, if_neg htag]
  constructor
  · apply chain'_append_singleton hchain
    intro x hx
    have hxlt : (x : Int) < (p : Int) := lt_of_le_of_lt (hb x hx) hgt
    exact_mod_cast hxlt
  · intro e he
    rcases List.mem_append.mp he with he | he
    · exact le_of_lt (lt_of_le_of_lt (hb e he) hgt)
    · simp only [List.mem_singleton] at he
      subst he
      exact le_refl _

theorem fpStep_inv (dur : Option Nat) (line : String) (st : FPState)
    (h : FPInv st) : FPInv (fpStep dur st line) := by
  obtain ⟨htot, hchain, hbound⟩ := h
  unfold fpStep
  by_cases hstop : st.stopped = true
  · rw [if_pos hstop]
    exact ⟨htot, hchain, hbound⟩
  · rw [if_neg hstop]
    have hstopf : st.stopped = false := by
      revert hstop
      cases st.stopped <;> simp
    obtain ⟨hb1, hb2⟩ := hbound hstopf
    by_cases hl1 : pyStartsWith line "frame=" = true
    · rw [if_pos hl1]
      rcases hn : parseFrameNum line with _ | n
      · simp only [hn]
        exact ⟨htot, hchain, hbound⟩
      · simp only [hn]
        rw [if_pos htot]
        set t2 := if n > st.total then n * 12 / 10 else st.total with ht2
        set prog := min (n * 100 / t2) 99 with hprog
        have htot2 : 0 < t2 := by
          rw [ht2]
          by_cases hbig : n > st.total
          · rw [if_pos hbig]
            have h2n : 2 ≤ n := by omega
            have h24 : 24 ≤ n * 12 := by omega
            have := Nat.div_le_div_right (c := 10) h24
            omega
          · rw [if_neg hbig]
            exact htot
        have hprog99 : prog ≤ 99 := min_le_right _ _
        by_cases hgt : (prog : Int) > st.last
        · rw [if_pos hgt]
          have hext := @ncChain_extend _ _ _ EmitTag.increase (by decide)
            hchain hb1 hgt
          refine ⟨htot2, hext.1, ?_⟩
          intro _
          refine ⟨hext.2, ?_⟩
          show ((prog : Nat) : Int) ≤ 99
          exact_mod_cast hprog99
        · rw [if_neg hgt]
          by_cases hcad : n % 25 = 0 ∧ n > 0
          · rw [if_pos hcad]
            refine ⟨htot2, ?_, ?_⟩
            · rw [ncPcts_append, if_pos rfl]
              exact hchain
            · intro _
              rw [ncPcts_append, if_pos rfl]
              exact ⟨hb1, hb2⟩
          · rw [if_neg hcad]
            exact ⟨htot2, hchain, fun _ => ⟨hb1, hb2⟩⟩
    · rw [if_neg hl1]
      by_cases hl2 : pyStartsWith line "out_time_ms=" = true
      · rw [if_pos hl2]
        rcases hdur : dur with _ | d
        · simp only [hdur]
          exact ⟨htot, hchain, hbound⟩
        · simp only [hdur]
          by_cases hd : d > 0
          · rw [if_pos hd]
            rcases hms : parseAfterEq line with _ | ms
            · simp only [hms]
              exact ⟨htot, hchain, hbound⟩
            · simp only [hms]
              set tp := min (ms * 100 / (1000000 * d)) 99 with htp
              have htp99 : tp ≤ 99 := min_le_right _ _
              by_cases hgt : (tp : Int) > st.last
              · rw [if_pos hgt]
                have hext := @ncChain_extend _ _ _ EmitTag.timeBased (by decide)
                  hchain hb1 hgt
                refine ⟨htot, hext.1, ?_⟩
                intro _
                refine ⟨hext.2, ?_⟩
                show ((tp : Nat) : Int) ≤ 99
                exact_mod_cast htp99
              · rw [if_neg hgt]
                exact ⟨htot, hchain, hbound⟩
          · rw [if_neg hd]
            exact ⟨htot, hchain, hbound⟩
      · rw [if_neg hl2]
        by_cases hl3 : pyStartsWith line "progress=end" = true
        · rw [if_pos hl3]
          have hgt : st.last < ((100 : Nat) : Int) := by
            have : ((100 : Nat) : Int) = (100 : Int) := by norm_num
            omega
          have hext := @ncChain_extend _ _ _ EmitTag.complete (by decide)
            hchain hb1 hgt
          refine ⟨htot, hext.1, ?_⟩
          intro hcontra
          simp at hcontra
        · rw [if_neg hl3]
          exact ⟨htot, hchain, hbound⟩

theorem fp_fold_inv (dur : Option Nat) :
    ∀ (lines : List String) (st : FPState), FPInv st →
      FPInv (lines.foldl (fpStep dur) st) := by
  intro lines
  induction lines with
  | nil => intro st h; exact h
  | cons l rest ih =>
    intro st h
    exact ih (fpStep dur st l) (fpStep_inv dur l st h)

/-- Invariant of the chunked streamer loop: the emissions form a
non-decreasing chain bounded by `last_pct`, and as long as the downloaded
byte count stays within the declared total every emission is at most 100. -/
theorem directLoop_inv (total : Nat) (hne : total ≠ 0) :
    ∀ (chunks : List Nat) (st : Nat × Int × List Nat),
      st.1 + chunks.sum ≤ total →
      List.Chain' (· ≤ ·) st.2.2 →
      (∀ e ∈ st.2.2, (e : Int) ≤ st.2.1) →
      (∀ e ∈ st.2.2, e ≤ 100) →
      List.Chain' (· ≤ ·) (chunks.foldl (directStep total) st).2.2 ∧
      (∀ e ∈ (chunks.foldl (directStep total) st).2.2, e ≤ 100) := by
  intro chunks
  induction chunks with
  | nil =>
    intro st _ h1 _ h3
    exact ⟨h1, h3⟩
  | cons ch rest ih =>
    intro st hsum h1 h2 h3
    simp only [List.foldl_cons]
    by_cases hch : ch ≠ 0
    · have hstep : directStep total st ch =
          (if (((st.1 + ch) * 100 / total : Nat) : Int) ≥ st.2.1 + 5 then
            (st.1 + ch, (((st.1 + ch) * 100 / total : Nat) : Int),
              st.2.2 ++ [(st.1 + ch) * 100 / total])
          else (st.1 + ch, st.2.1, st.2.2)) := by
        simp [directStep, hch, hne]
      have hsum2 : (st.1 + ch) + rest.sum ≤ total := by
        simp only [List.sum_cons] at hsum
        omega
      have hpct100 : (st.1 + ch) * 100 / total ≤ 100 := by
        have hd : st.1 + ch ≤ total := by
          have := rest.sum
          simp only [List.sum_cons] at hsum
          omega
        calc (st.1 + ch) * 100 / total ≤ total * 100 / total :=
              Nat.div_le_div_right (Nat.mul_le_mul_right 100 hd)
          _ = 100 := by
              rw [Nat.mul_comm]
              exact Nat.mul_div_cancel 100 (Nat.pos_of_ne_zero hne)
      by_cases hemit : (((st.1 + ch) * 100 / total : Nat) : Int) ≥ st.2.1 + 5
      · rw [hstep, if_pos hemit]
        apply ih
        · exact hsum2
        · apply chain'_append_singleton h1
          intro x hx
          have hxle : (x : Int) ≤ st.2.1 := h2 x hx
          have hcast : (x : Int) ≤ (((st.1 + ch) * 100 / total : Nat) : Int) := by omega
          exact_mod_cast hcast
        · intro e he
          rcases List.mem_append.mp he with he | he
          · have hold := h2 e he
            show (e : Int) ≤ (((st.1 + ch) * 100 / total : Nat) : Int)
            omega
          · simp only [List.mem_singleton] at he
            subst he
            show ((((st.1 + ch) * 100 / total : Nat)) : Int) ≤
              (((st.1 + ch) * 100 / total : Nat) : Int)
            exact le_refl _
        · intro e he
          rcases List.mem_append.mp he with he | he
          · exact h3 e he
          · simp only [List.mem_singleton] at he
            subst he
            exact hpct100
      · rw [hstep, if_neg hemit]
        exact ih _ hsum2 h1 h2 h3
    · have hstep : directStep total st ch = st := by simp [directStep, hch]
      rw [hstep]
      apply ih
      · simp only [List.sum_cons] at hsum
        omega
      · exact h1
      · exact h2
      · exact h3

theorem directStep_zero_total :
    ∀ (chunks : List Nat) (st : Nat × Int × List Nat),
      chunks.foldl (directStep 0) st = st := by
  intro chunks
  induction chunks with
  | nil => intro st; rfl
  | cons ch rest ih =>
    intro st
    simp only [List.foldl_cons]
    rw [show directStep 0 st ch = st by simp [directStep]]
    exact ih st

/-- C5 amended: progress is monotonically non-decreasing for the per-segment
reporter always, for the direct streamer whenever the received bytes do not
exceed the declared content length (or no length is declared), and in the
transcoder progress reader for every emission other than the 25-frame
cadence re-emissions — those may repeat a lower percentage after the frame
total is dynamically enlarged. -/
theorem c5_progress_monotonicity :
    (∀ total chunks, chunks.sum ≤ total ∨ total = 0 →
      List.Chain' (· ≤ ·) (directMp4Emits total chunks)) ∧
    (∀ n k, List.Chain' (· ≤ ·) (segmentProgressEmits n k)) ∧
    (∀ total dur lines, 0 < total →
      List.Chain' (· < ·) (ncPcts (fpRun total dur lines).emits)) := by
  refine ⟨?_, ?_, ?_⟩
  · intro total chunks hcase
    show List.Chain' (· ≤ ·)
      ((0 :: (chunks.foldl (directStep total) (0, (-1 : Int), [])).2.2) ++ [100])
    by_cases hne : total = 0
    · subst hne
      rw [directStep_zero_total]
      simp [List.chain'_cons]
    · have hsum : chunks.sum ≤ total := hcase.resolve_right hne
      have hloop := directLoop_inv total hne chunks (0, (-1 : Int), [])
        (by simpa using hsum) List.chain'_nil (by simp) (by simp)
      apply chain'_append_singleton
      · rw [List.chain'_cons']
        exact ⟨fun h _ => Nat.zero_le _, hloop.1⟩
      · intro x hx
        rcases List.mem_cons.mp hx with hx | hx
        · subst hx
          exact Nat.zero_le _
        · exact hloop.2 x hx
  · intro n k
    apply List.Pairwise.chain'
    unfold segmentProgressEmits
    rw [List.pairwise_map]
    apply (List.pairwise_lt_range k).imp
    intro a b hab
    exact Nat.div_le_div_right (Nat.mul_le_mul_right 100 (le_of_lt hab))
  · intro total dur lines htotal
    have hinit : FPInv { total := total, cf := 0, last := -1, emits := [], stopped := false } := by
      refine ⟨htotal, ?_, ?_⟩
      · simp [ncPcts]
      · intro _
        constructor
        · intro e he
          simp [ncPcts] at he
        · norm_num
    exact (fp_fold_inv dur lines _ hinit).2.1

/-- Witness for C5 amended: the three monotonicity statements applied at
concrete runs. -/
theorem c5_witness :
    List.Chain' (· ≤ ·) (directMp4Emits 100 [30, 30]) ∧
    List.Chain' (· ≤ ·) (segmentProgressEmits 4 3) ∧
    List.Chain' (· < ·) (ncPcts (fpRun 128 none ["frame=127"]).emits) := by
  refine ⟨?_, ?_, ?_⟩
  · exact c5_progress_monotonicity.1 100 [30, 30] (Or.inl (by norm_num))
  · exact c5_progress_monotonicity.2.1 4 3
  · exact c5_progress_monotonicity.2.2 128 none ["frame=127"] (by norm_num)

/-! ## Supervised retry wrapper (claim C6)

`app.py:WebDownloader.download_video` wraps extraction in a
`while retry_count <= max_retries` loop with `max_retries = 2`.  The trace of
supervisor actions (extraction attempts, the ARM browser reinitialization on
the first retry, the single MON fallback for TAP, the chosen result or the
terminal failure) is reconstructed from the attempt outcomes. -/

/-- `source and source.upper() == 'TAP'`. -/
def sourceIsTap (source : Option String) : Bool :=
  match source with
  | none => false
  | some s => ¬ s.isEmpty ∧ pyUpper s = "TAP"

/-- `source and source.upper() == 'MON'`. -/
def sourceIsMon (source : Option String) : Bool :=
  match source with
  | none => false
  | some s => ¬ s.isEmpty ∧ pyUpper s = "MON"

/-- Outcome of one `extract_media_urls` call as seen by the wrapper: a list
of URLs, or an exception reaching the `except` handler of the loop. -/
inductive AttOutcome
  | urls (l : List String)
  | raise
deriving Repr, DecidableEq

inductive RetryAction
  | reinit (ok : Bool)
  | extractAttempt (source : Option String)
  | fallbackExtract
  | terminal
  | chosen (urls : List String) (convertForced : Bool)
deriving Repr, DecidableEq

structure RetryEnv where
  o0 : AttOutcome
  o1 : AttOutcome
  o2 : AttOutcome
  isArm : Bool
  reinitOk : Bool
  fallbackUrls : List String
deriving Repr

/-- The loop iteration with `retry_count == 2`: a third empty result triggers
the single TAP→MON fallback (`extract_media_urls(url, 'MON')` with
`convert_to_mp4` forced to `True`) before the terminal failure; a third
exception is terminal with no fallback. -/
def retryStage2 (env : RetryEnv) (source : Option String) (convert : Bool) :
    List RetryAction :=
  RetryAction.extractAttempt source ::
    (match env.o2 with
    | AttOutcome.urls l =>
      if l = [] then
        if sourceIsTap source then
          RetryAction.fallbackExtract ::
            (if env.fallbackUrls = [] then [RetryAction.terminal]
             else [RetryAction.chosen env.fallbackUrls true])
        else [RetryAction.terminal]
      else [RetryAction.chosen l convert]
    | AttOutcome.raise => [RetryAction.terminal])

/-- The loop iteration with `retry_count == 1`: the first retry, which on an
ARM platform reinitializes the browser before extracting again
(`retry_count == 1 and not browser_reinitialized`). -/
def retryStage1 (env : RetryEnv) (source : Option String) (convert : Bool) :
    List RetryAction :=
  (if env.isArm then [RetryAction.reinit env.reinitOk] else []) ++
    RetryAction.extractAttempt source ::
      (match env.o1 with
      | AttOutcome.urls l =>
        if l = [] then retryStage2 env source convert
        else [RetryAction.chosen l convert]
      | AttOutcome.raise => retryStage2 env source convert)

/-- The supervisor-action trace of `download_video`'s
`while retry_count <= max_retries` loop (`max_retries = 2`), unrolled over
its three iterations: an empty result or an exception consumes one retry. -/
def download_video_retry (env : RetryEnv) (source : Option String) (convert : Bool) :
    List RetryAction :=
  RetryAction.extractAttempt source ::
    (match env.o0 with
    | AttOutcome.urls l =>
      if l = [] then retryStage1 env source convert
      else [RetryAction.chosen l convert]
    | AttOutcome.raise => retryStage1 env source convert)

/-- An attempt outcome that triggers a retry. -/
def failedOutcome (o : AttOutcome) : Prop := o = AttOutcome.raise ∨ o = AttOutcome.urls []

/-- C6: extraction is attempted at most 3 times (2 retries beyond the first
attempt) whether attempts return nothing or throw; on an ARM platform the
first retry reinitializes the browser between the first and second attempts;
when the requested provider is TAP and all three attempts return no
candidates, the MON fallback is attempted exactly once, with the conversion
branch forced, before the terminal failure; no fallback happens for other
providers. -/
theorem c6_retry_and_fallback (env : RetryEnv) (source : Option String) (convert : Bool) :
    ((download_video_retry env source convert).count
        (RetryAction.extractAttempt source) ≤ 3) ∧
    (env.isArm = true → failedOutcome env.o0 →
      (download_video_retry env source convert).take 3 =
        [RetryAction.extractAttempt source, RetryAction.reinit env.reinitOk,
         RetryAction.extractAttempt source]) ∧
    (sourceIsTap source = true → env.o0 = AttOutcome.urls [] →
      env.o1 = AttOutcome.urls [] → env.o2 = AttOutcome.urls [] →
      (download_video_retry env source convert).count RetryAction.fallbackExtract = 1 ∧
      (env.fallbackUrls = [] →
        (download_video_retry env source convert).getLast? = some RetryAction.terminal) ∧
      (env.fallbackUrls ≠ [] →
        (download_video_retry env source convert).getLast? =
          some (RetryAction.chosen env.fallbackUrls true))) ∧
    (sourceIsTap source = false →
      (download_video_retry env source convert).count RetryAction.fallbackExtract = 0) := by
  obtain ⟨o0, o1, o2, arm, rok, fb⟩ := env
  refine ⟨?_, ?_, ?_, ?_⟩
  · rcases o0 with l0 | _ <;> rcases o1 with l1 | _ <;> rcases o2 with l2 | _ <;>
      simp only [download_video_retry, retryStage1, retryStage2] <;>
      split_ifs <;>
      simp [List.count_cons]
  · intro harm hfail
    have harm2 : arm = true := harm
    rcases hfail with hf | hf <;> subst hf <;>
      simp [download_video_retry, retryStage1, retryStage2, harm2]
  · intro htap h0 h1 h2
    subst h0; subst h1; subst h2
    by_cases harm : arm = true <;> by_cases hfb : fb = [] <;>
      simp_all [download_video_retry, retryStage1, retryStage2, List.count_cons]
  · intro htap
    rcases o0 with l0 | _ <;> rcases o1 with l1 | _ <;> rcases o2 with l2 | _ <;>
      simp only [download_video_retry, retryStage1, retryStage2, htap] <;>
      split_ifs <;>
      simp_all [List.count_cons]

/-- Witness for C6 at a concrete environment: TAP on ARM, all attempts
empty, fallback succeeding. -/
theorem c6_witness :
    (download_video_retry
        ⟨AttOutcome.urls [], AttOutcome.urls [], AttOutcome.urls [],
         true, true, ["http://m/x.m3u8"]⟩ (some "TAP") false).count
      (RetryAction.extractAttempt (some "TAP")) ≤ 3 ∧
    (download_video_retry
        ⟨AttOutcome.urls [], AttOutcome.urls [], AttOutcome.urls [],
         true, true, ["http://m/x.m3u8"]⟩ (some "TAP") false).getLast? =
      some (RetryAction.chosen ["http://m/x.m3u8"] true) := by
  constructor
  · exact (c6_retry_and_fallback
      ⟨AttOutcome.urls [], AttOutcome.urls [], AttOutcome.urls [],
       true, true, ["http://m/x.m3u8"]⟩ (some "TAP") false).1
  · exact ((c6_retry_and_fallback
      ⟨AttOutcome.urls [], AttOutcome.urls [], AttOutcome.urls [],
       true, true, ["http://m/x.m3u8"]⟩ (some "TAP") false).2.2.1
      (by decide) rfl rfl rfl).2.2 (by simp)

/-! ## `extract_media_urls` (claims C1, C2, C7, C10)

The extraction run is embedded as an interpreter over an explicit
environment: each network listener of the source is a pure state
transformer; each navigation or timed wait is an environment point that
first delivers the network events observed during it and then may raise.
Exceptions that escape to the outer `try` of `extract_media_urls` are
`Except.error` values carrying the state at the raise point; the outer
handler removes the listeners tracked in `all_listeners` and returns the
accumulated list. -/

inductive LTag
  | monReq
  | monResp
  | legacyReq
  | legacyResp
  | mainReq
  | mainResp
deriving Repr, DecidableEq

structure NetEvent where
  isRequest : Bool
  url : String
deriving Repr, DecidableEq

structure XState where
  found : List String
  attached : List LTag
  tracked : List LTag
  shouldStop : Bool
  pageUrl : String
deriving Repr, DecidableEq

/-- The Streamtape host allow-list
`['streamtape', 'tapecontent', 'streamta.pe']` as substring tests. -/
def tapHostStr (u : String) : Bool :=
  containsSub u "streamtape" || containsSub u "tapecontent" || containsSub u "streamta.pe"

/-- `_sniff_mon_request` / `_sniff_mon_response`: append any `.m3u8` URL not
already present (the membership test compares the lowercased URL against the
original-case entries) and set the early-stop flag. -/
def monSniffStep (st : XState) (url : String) : XState :=
  let u := pyLower url
  if containsSub u ".m3u8" ∧ ¬ st.found.contains u then
    { st with found := st.found ++ [url], shouldStop := true }
  else st

/-- The `_sniff` closure of `_mon_extract_legacy` (registered for both
requests and responses). -/
def legacyMonSniffStep (st : XState) (url : String) : XState :=
  let u := pyLower url
  if containsSub u ".m3u8" ∧ ¬ st.found.contains u then
    { st with found := st.found ++ [url] }
  else st

/-- `_sniff_request` / `_sniff_response` of the main flow: for TAP only
Streamtape-host URLs are accepted; otherwise `.m3u8` URLs are accepted and
`.mp4` URLs only from Streamtape hosts. -/
def mainSniffStep (source : Option String) (st : XState) (url : String) : XState :=
  let u := pyLower url
  if (containsSub u ".m3u8" ∨ containsSub u ".mp4") ∧ ¬ st.found.contains u then
    if sourceIsTap source then
      if tapHostStr u then { st with found := st.found ++ [url] } else st
    else if containsSub u ".m3u8" then { st with found := st.found ++ [url] }
    else if containsSub u ".mp4" ∧ tapHostStr u then { st with found := st.found ++ [url] }
    else st
  else st

def fires (t : LTag) (isReq : Bool) : Bool :=
  match t with
  | LTag.monReq | LTag.legacyReq | LTag.mainReq => isReq
  | LTag.monResp | LTag.legacyResp | LTag.mainResp => !isReq

def listenerAction (source : Option String) (t : LTag) (st : XState) (url : String) : XState :=
  match t with
  | LTag.monReq | LTag.monResp => monSniffStep st url
  | LTag.legacyReq | LTag.legacyResp => legacyMonSniffStep st url
  | LTag.mainReq | LTag.mainResp => mainSniffStep source st url

/-- Dispatch one network event to every listener currently registered on the
context, in registration order. -/
def deliverEvent (source : Option String) (st : XState) (ev : NetEvent) : XState :=
  st.attached.foldl
    (fun s t => if fires t ev.isRequest then listenerAction source t s ev.url else s) st

def deliverAll (source : Option String) (st : XState) (evs : List NetEvent) : XState :=
  evs.foldl (deliverEvent source) st

/-- `ctx.on(...)` registrations; `track` mirrors appending to `all_listeners`
(the legacy MON extractor keeps its listeners in a local list instead). -/
def attachListeners (st : XState) (ts : List LTag) (track : Bool) : XState :=
  { st with
    attached := st.attached ++ ts
    tracked := if track then st.tracked ++ ts else st.tracked }

def removeListeners (st : XState) (ts : List LTag) : XState :=
  { st with attached := ts.foldl (fun a t => a.erase t) st.attached }

/-- The outer exception handler of `extract_media_urls`: remove every
listener still recorded in `all_listeners`. -/
def handlerCleanup (st : XState) : XState :=
  { st with attached := st.tracked.foldl (fun a t => a.erase t) st.attached }

/-- The direct MON URL constructed from the page path
(`/matrix` → `matrix/1`, `/show/S01E01` → `show/S01E01/1`). -/
def monUrl (url : String) : String :=
  let parts := pathParts (pyUrlparse url "").path
  if parts.length = 1 then pyUrljoin url ((parts.headD "") ++ "/1")
  else if parts.length ≥ 2 then
    pyUrljoin url ((parts.headD "") ++ "/" ++ ((parts.drop 1).headD "") ++ "/1")
  else pyUrljoin url "1"

/-- `_tap_extract_legacy`'s effect on `found_urls`: each frame candidate that
is an http URL, not already collected, and on a Streamtape host is appended
(the extractor's own strict filter). -/
def tapLegacyEffect (cands : List String) (found : List String) : List String :=
  cands.foldl
    (fun acc c =>
      if pyStartsWith c "http" ∧ ¬ acc.contains c ∧ tapHostStr (pyLower c) then acc ++ [c]
      else acc) found

/-- The strict TAP post-filter pattern (lines 349-360 and 724-735): keep only
Streamtape-host URLs, but fall back to the unfiltered list when nothing
passes. -/
def tapStrictFilterStep (found : List String) : List String :=
  if found ≠ [] then
    let filtered := found.filter (fun u => tapHostStr (pyLower u))
    if filtered ≠ [] then filtered else found
  else found

/-- The final ad-filter predicate (lines 694-706). -/
def finalFilterPred (source : Option String) (u : String) : Bool :=
  if sourceIsTap source then tapHostStr (pyLower u)
  else if containsSub (pyLower u) ".m3u8" then true
  else containsSub (pyLower u) ".mp4" && tapHostStr (pyLower u)

/-- End of the main flow (lines 690-753): deduplicate, apply the final
filter only when it actually removes something, and as a last resort rerun
the legacy TAP extractor when a TAP request ends up with nothing. -/
def mainFinalize (source : Option String) (cands2 : List String)
    (found0 : List String) : List String :=
  let found1 := pydedup found0
  let found2 :=
    if found1 ≠ [] then
      let filtered := found1.filter (finalFilterPred source)
      if filtered.length < found1.length then filtered else found1
    else found1
  if found2 = [] ∧ sourceIsTap source then
    tapStrictFilterStep (tapLegacyEffect cands2 found2)
  else found2

/-- `if href and href not in ("#", "", "javascript:void(0)")` negated. -/
def inertHref (h : Option String) : Bool :=
  match h with
  | none => true
  | some s => s = "" ∨ s = "#" ∨ s = "javascript:void(0)"

structure MonEnv where
  directEvents : List NetEvent := []
  directGotoRaises : Bool := false
  directWaitRaises : Bool := false
  fallbackGotoEvents : List NetEvent := []
  fallbackGotoRaises : Bool := false
  recoveryGotoEvents : List NetEvent := []
  recoveryGotoRaises : Bool := false
deriving Repr

structure LegacyMonEnv where
  gotoEvents : List NetEvent := []
  gotoRaises : Bool := false
  clickEvents : List NetEvent := []
  waitEvents : List NetEvent := []
  waitRaises : Bool := false
deriving Repr

structure ButtonEnv where
  readyWaitRaises : Bool := false
  attemptEvents : List NetEvent := []
  present : Bool := false
  href : Option String := none
  getAttrRaises : Bool := false
  navRaises : Bool := false
  destIsTapPage : Bool := false
  videoSrc : Option String := none
  clickOk : Bool := false
  jsClickOk : Bool := false
  networkidleOk : Bool := true
  loadFallbackWaitRaises : Bool := false
  frames : List (String × Option String) := []
  retryWaitRaises : Bool := false
deriving Repr

structure ExtractEnv where
  initialPageUrl : String := ""
  tapLegacyCands1 : List String := []
  mon : MonEnv := {}
  legacyMon : LegacyMonEnv := {}
  mainGotoEvents : List NetEvent := []
  mainGotoRaises : Bool := false
  attempt1 : ButtonEnv := {}
  attempt2 : ButtonEnv := {}
  attempt3 : ButtonEnv := {}
  passiveEvents : List NetEvent := []
  passiveWaitRaises : Bool := false
  tapLegacyCands2 : List String := []
deriving Repr

inductive RetSite
  | tapEarly
  | monEarly
  | monLegacySite
  | mainSite
deriving Repr, DecidableEq

/-- Outcome of the direct-MON block: an early return, a continuation into
the rest of the flow, or an exception escaping to the outer handler. -/
inductive MonFlow
  | ret (l : List String) (st : XState)
  | cont (st : XState)
  | err (st : XState)
deriving Repr

/-- After the direct-MON `try`/`except` (lines 459-463): remove the MON
listeners, reset `all_listeners` and the stop flag. -/
def monReset (st : XState) : XState :=
  { removeListeners st [LTag.monReq, LTag.monResp] with
    tracked := []
    shouldStop := false }

/-- The `except` arm of the direct-MON block (lines 454-457): navigate back
to the original URL; a failure there escapes to the outer handler with the
MON listeners still registered and tracked. -/
def monRecovery (source : Option String) (menv : MonEnv) (url : String)
    (st : XState) : MonFlow :=
  let st2 := deliverAll source st menv.recoveryGotoEvents
  if menv.recoveryGotoRaises then MonFlow.err st2
  else MonFlow.cont (monReset { st2 with pageUrl := url })

/-- The direct-MON block (lines 370-463): register the MON sniffers before
navigation, go to the constructed MON URL, wait, and return the accumulated
URLs immediately — without deduplication — when anything was captured;
otherwise navigate back and deregister. -/
def monPhase (source : Option String) (menv : MonEnv) (url : String)
    (st0 : XState) : MonFlow :=
  let st1 := attachListeners st0 [LTag.monReq, LTag.monResp] true
  let st2 := deliverAll source st1 menv.directEvents
  if menv.directGotoRaises then monRecovery source menv url st2
  else
    let st3 := { st2 with pageUrl := monUrl url }
    if menv.directWaitRaises then monRecovery source menv url st3
    else
      if st3.found ≠ [] ∨ st3.shouldStop then
        MonFlow.ret st3.found (removeListeners st3 [LTag.monReq, LTag.monResp])
      else
        let st4 := deliverAll source st3 menv.fallbackGotoEvents
        if menv.fallbackGotoRaises then monRecovery source menv url st4
        else monReset { st4 with pageUrl := url }
          |> MonFlow.cont

/-- The tail of `_mon_extract_legacy` after any navigation: the click section
(its exceptions are caught inline), the long passive wait, and — only when
that wait does not raise — deregistration of the legacy listeners. -/
def legacyMonRest (source : Option String) (lenv : LegacyMonEnv) (st : XState) : XState :=
  let st1 := deliverAll source st lenv.clickEvents
  let st2 := deliverAll source st1 lenv.waitEvents
  if lenv.waitRaises then st2
  else removeListeners st2 [LTag.legacyReq, LTag.legacyResp]

/-- `_mon_extract_legacy` (lines 262-311): registers its own listeners
(tracked only in a local list, never in `all_listeners`), navigates when the
page is elsewhere, clicks MON, waits; an exception is caught internally and
returns with the listeners still registered. -/
def legacyMonPhase (source : Option String) (lenv : LegacyMonEnv) (url : String)
    (st : XState) : XState :=
  let st1 := attachListeners st [LTag.legacyReq, LTag.legacyResp] false
  if st1.pageUrl ≠ url then
    let st2 := deliverAll source st1 lenv.gotoEvents
    if lenv.gotoRaises then st2
    else legacyMonRest source lenv { st2 with pageUrl := url }
  else legacyMonRest source lenv st1

/-- One iteration of the source-activation `while` loop after activation
(lines 647-665): wait for the network to settle (with a raising fallback
wait caught by the attempt handler), scan Streamtape frames for a video
source, and leave the loop. -/
def postActivation (b : ButtonEnv) (isLast : Bool) (st : XState) :
    Except XState (XState × Bool) :=
  if ¬ b.networkidleOk ∧ b.loadFallbackWaitRaises then
    if ¬ isLast then
      (if b.retryWaitRaises then Except.error st else Except.ok (st, true))
    else Except.ok (st, true)
  else
    let st2 := b.frames.foldl
      (fun s fr =>
        if containsSub fr.1 "streamtape" ∨ containsSub fr.1 "streamta.pe" then
          match fr.2 with
          | some c =>
            if pyStartsWith c "http" ∧ ¬ s.found.contains c then
              { s with found := s.found ++ [c] }
            else s
          | none => s
        else s) st
    Except.ok (st2, true)

/-- One iteration of the source-activation `while` loop (lines 538-673).
The boolean result is `source_activated`; `Except.error` is an exception
escaping the loop (a raising `wait_for_timeout` inside the `except`
handler). -/
def runAttempt (source : Option String) (url : String) (b : ButtonEnv)
    (isLast : Bool) (st : XState) : Except XState (XState × Bool) :=
  if b.readyWaitRaises then
    if ¬ isLast then
      (if b.retryWaitRaises then Except.error st else Except.ok (st, false))
    else Except.ok (st, false)
  else
    let st1 := deliverAll source st b.attemptEvents
    if ¬ b.present then
      if ¬ isLast then
        (if b.retryWaitRaises then Except.error st1 else Except.ok (st1, false))
      else Except.ok (st1, false)
    else if b.getAttrRaises then
      if ¬ isLast then
        (if b.retryWaitRaises then Except.error st1 else Except.ok (st1, false))
      else Except.ok (st1, false)
    else if ¬ inertHref b.href then
      if b.navRaises then Except.ok (st1, false)
      else
        let st2 := { st1 with pageUrl := pyUrljoin url (b.href.getD "") }
        let st3 :=
          if b.destIsTapPage then
            match b.videoSrc with
            | some c =>
              if pyStartsWith c "http" ∧ ¬ st2.found.contains c then
                { st2 with found := st2.found ++ [c] }
              else st2
            | none => st2
          else st2
        postActivation b isLast st3
    else
      if b.clickOk ∨ b.jsClickOk then postActivation b isLast st1
      else Except.ok (st1, false)

/-- The `while not source_activated and source_attempt < 3` loop. -/
def activationLoop (source : Option String) (url : String)
    (a1 a2 a3 : ButtonEnv) (st : XState) : Except XState XState :=
  match runAttempt source url a1 false st with
  | Except.error s => Except.error s
  | Except.ok (s, true) => Except.ok s
  | Except.ok (s, false) =>
    match runAttempt source url a2 false s with
    | Except.error s2 => Except.error s2
    | Except.ok (s2, true) => Except.ok s2
    | Except.ok (s2, false) =>
      match runAttempt source url a3 true s2 with
      | Except.error s3 => Except.error s3
      | Except.ok (s3, _) => Except.ok s3

/-- Lines 685-753: deregister the tracked listeners, reset `all_listeners`,
then deduplicate, filter and (for TAP) run the last-resort legacy extractor;
this is the normal-return path. -/
def mainWrapUp (source : Option String) (env : ExtractEnv) (st : XState) :
    Except XState (List String × XState × RetSite) :=
  let st1 := { removeListeners st [LTag.mainReq, LTag.mainResp] with tracked := [] }
  let result := mainFinalize source env.tapLegacyCands2 st1.found
  Except.ok (result, { st1 with found := result }, RetSite.mainSite)

/-- `if source:` — the activation loop runs only when a source label was
requested. -/
def activationPhase (source : Option String) (env : ExtractEnv) (url : String)
    (st : XState) : Except XState XState :=
  match source with
  | none => Except.ok st
  | some _ => activationLoop source url env.attempt1 env.attempt2 env.attempt3 st

/-- The main flow (lines 472-753): register the main sniffers, navigate,
run the activation loop when a source is requested, do the passive wait when
nothing was captured, and wrap up. -/
def mainPhase (source : Option String) (env : ExtractEnv) (url : String)
    (st : XState) : Except XState (List String × XState × RetSite) :=
  let st1 := attachListeners st [LTag.mainReq, LTag.mainResp] true
  let st2 := deliverAll source st1 env.mainGotoEvents
  if env.mainGotoRaises then Except.error st2
  else
    match activationPhase source env url { st2 with pageUrl := url } with
    | Except.error s => Except.error s
    | Except.ok s =>
      if s.found = [] then
        let s2 := deliverAll source s env.passiveEvents
        if env.passiveWaitRaises then Except.error s2
        else mainWrapUp source env s2
      else mainWrapUp source env s

/-- The body of `extract_media_urls` inside the outer `try` (lines 343-740),
for an initialized page. -/
def extractBody (env : ExtractEnv) (source : Option String) (url : String) :
    Except XState (List String × XState × RetSite) :=
  let st0 : XState :=
    { found := [], attached := [], tracked := [], shouldStop := false,
      pageUrl := env.initialPageUrl }
  if sourceIsTap source then
    let f1 := tapStrictFilterStep (tapLegacyEffect env.tapLegacyCands1 [])
    if f1 ≠ [] then Except.ok (f1, { st0 with found := f1 }, RetSite.tapEarly)
    else mainPhase source env url { st0 with found := f1 }
  else if sourceIsMon source then
    match monPhase source env.mon url st0 with
    | MonFlow.err st => Except.error st
    | MonFlow.ret l st => Except.ok (l, st, RetSite.monEarly)
    | MonFlow.cont st =>
      if st.found = [] then
        let st2 := legacyMonPhase source env.legacyMon url st
        if st2.found ≠ [] then
          Except.ok (pydedup st2.found,
            { st2 with found := pydedup st2.found }, RetSite.monLegacySite)
        else mainPhase source env url st2
      else mainPhase source env url st
  else mainPhase source env url st0

/-- `extract_media_urls`: `([], ...)` for an uninitialized page, the body's
result on a normal return, and the handler's state (tracked listeners
removed, accumulated URLs returned as-is) when the body raises. -/
def extractRun (env : ExtractEnv) (source : Option String) (url : String)
    (pageInit : Bool) : List String × XState :=
  let st0 : XState :=
    { found := [], attached := [], tracked := [], shouldStop := false,
      pageUrl := env.initialPageUrl }
  if pageInit then
    match extractBody env source url with
    | Except.ok r => (r.1, r.2.1)
    | Except.error st => ((handlerCleanup st).found, handlerCleanup st)
  else ([], st0)

/-- Claim C1 as stated: every URL returned by a TAP extraction lies on a
known Streamtape hosting domain, on every run including exception-handler
returns. -/
def c1ClaimStatement : Prop :=
  ∀ env url pageInit, ∀ u ∈ (extractRun env (some "TAP") url pageInit).1,
    tapHostStr (pyLower u) = true

/-- A TAP run in which the activation step navigates to a Streamtape page,
harvests a non-Streamtape `video.src`, and a later wait raises out of the
loop's `except` handler into the outer handler. -/
def envC1 : ExtractEnv :=
  { attempt1 := {
      present := true
      href := some "/tap-page"
      destIsTapPage := true
      videoSrc := some "http://ads.example/clip"
      networkidleOk := false
      loadFallbackWaitRaises := true
      retryWaitRaises := true } }

/-- C1 counterexample: the direct-page harvest (line 616-622) appends
`video.src` without a Streamtape check, and the exception path returns
`found_urls` without the final TAP filter, so a TAP run can return an ad
URL. -/
theorem c1_counterexample :
    (extractRun envC1 (some "TAP") "https://film.kukaj.fi/matrix" true).1 =
      ["http://ads.example/clip"] ∧
    tapHostStr (pyLower "http://ads.example/clip") = false ∧
    ¬ c1ClaimStatement := by
  refine ⟨by decide, by decide, ?_⟩
  intro h
  have h2 := h envC1 "https://film.kukaj.fi/matrix" true "http://ads.example/clip"
    (by decide)
  exact absurd h2 (by decide)

/-- Claim C2 as stated: the returned URL list is duplicate-free on every
return path. -/
def c2ClaimStatement : Prop :=
  ∀ env source url pageInit, ((extractRun env source url pageInit).1).Nodup

/-- A MON run in which the same upper-case URL is observed by both the
request and the response listener during the direct-MON navigation. -/
def envC2 : ExtractEnv :=
  { mon := { directEvents :=
      [⟨true, "HTTP://H/A.M3U8"⟩, ⟨false, "HTTP://H/A.M3U8"⟩] } }

/-- C2 counterexample: the MON sniffers compare the lowercased URL against
the original-case entries, so an upper-case URL seen by both listeners is
appended twice, and the direct-MON early return (line 447) skips the
deduplication step. -/
theorem c2_counterexample :
    (extractRun envC2 (some "MON") "https://film.kukaj.fi/matrix" true).1 =
      ["HTTP://H/A.M3U8", "HTTP://H/A.M3U8"] ∧
    ¬ c2ClaimStatement := by
  refine ⟨by decide, ?_⟩
  intro h
  have h2 := h envC2 (some "MON") "https://film.kukaj.fi/matrix" true
  rw [show (extractRun envC2 (some "MON") "https://film.kukaj.fi/matrix" true).1 =
    ["HTTP://H/A.M3U8", "HTTP://H/A.M3U8"] from by decide] at h2
  simp [List.nodup_cons] at h2

/-- Claim C7 as stated (the end-of-run consequence of listener symmetry):
every listener registered during the run has been deregistered by the time
`extract_media_urls` returns. -/
def c7ClaimStatement : Prop :=
  ∀ env source url pageInit, (extractRun env source url pageInit).2.attached = []

/-- A MON run in which the legacy MON extractor's long wait raises: the
internal `except` returns without removing the legacy listeners, which are
tracked only in a local list. -/
def envC7 : ExtractEnv := { legacyMon := { waitRaises := true } }

/-- C7 counterexample: after the legacy MON wait raises, its listeners stay
registered while the main flow attaches its own sniffers, and they are still
registered when the run returns. -/
theorem c7_counterexample :
    (extractRun envC7 (some "MON") "https://film.kukaj.fi/matrix" true).2.attached =
      [LTag.legacyReq, LTag.legacyResp] ∧
    ¬ c7ClaimStatement := by
  refine ⟨by decide, ?_⟩
  intro h
  have h2 := h envC7 (some "MON") "https://film.kukaj.fi/matrix" true
  rw [show (extractRun envC7 (some "MON") "https://film.kukaj.fi/matrix" true).2.attached =
    [LTag.legacyReq, LTag.legacyResp] from by decide] at h2
  exact absurd h2 (by simp)

/-- C10: `extract_media_urls` is total at its interface — an uninitialized
page returns the empty list, and for every environment, including every
combination of raising navigations and waits, the run returns a list: the
body's list on a normal return, and the partial `found_urls` accumulated at
the raise point when the body raises (the outer handler only removes the
tracked listeners). -/
theorem c10_extract_total (env : ExtractEnv) (source : Option String) (url : String) :
    (extractRun env source url false).1 = [] ∧
    extractRun env source url true =
      (match extractBody env source url with
       | Except.ok r => (r.1, r.2.1)
       | Except.error st => (st.found, handlerCleanup st)) := by
  constructor
  · rfl
  · unfold extractRun
    rcases hb : extractBody env source url with st | r
    · simp [hb, handlerCleanup]
    · simp [hb]

/-! Supporting lemmas for the amended C1 and C2 statements. -/

theorem tapLegacyEffect_pred (cands : List String) :
    ∀ (found : List String), (∀ u ∈ found, tapHostStr (pyLower u) = true) →
      ∀ u ∈ tapLegacyEffect cands found, tapHostStr (pyLower u) = true := by
  induction cands with
  | nil => intro found h; exact h
  | cons c cs ih =>
    intro found h
    show ∀ u ∈ tapLegacyEffect cs
      (if pyStartsWith c "http" = true ∧ ¬ found.contains c = true ∧
          tapHostStr (pyLower c) = true then found ++ [c] else found), _
    apply ih
    intro u hu
    by_cases hc : (pyStartsWith c "http" = true ∧ ¬ found.contains c = true ∧
        tapHostStr (pyLower c) = true)
    · rw [if_pos hc] at hu
      rcases List.mem_append.mp hu with hm | hm
      · exact h u hm
      · simp only [List.mem_singleton] at hm
        subst hm
        exact hc.2.2
    · rw [if_neg hc] at hu
      exact h u hu

theorem tapLegacyEffect_nodup (cands : List String) :
    ∀ (found : List String), found.Nodup → (tapLegacyEffect cands found).Nodup := by
  induction cands with
  | nil => intro found h; exact h
  | cons c cs ih =>
    intro found h
    show (tapLegacyEffect cs
      (if pyStartsWith c "http" = true ∧ ¬ found.contains c = true ∧
          tapHostStr (pyLower c) = true then found ++ [c] else found)).Nodup
    apply ih
    by_cases hc : (pyStartsWith c "http" = true ∧ ¬ found.contains c = true ∧
        tapHostStr (pyLower c) = true)
    · rw [if_pos hc]
      have hcmem : c ∉ found := by
        intro hmem
        exact hc.2.1 (List.elem_eq_true_of_mem hmem)
      simp [List.nodup_append, h, hcmem]
    · rw [if_neg hc]
      exact h

theorem tapStrict_pred (found : List String)
    (h : ∀ u ∈ found, tapHostStr (pyLower u) = true) :
    ∀ u ∈ tapStrictFilterStep found, tapHostStr (pyLower u) = true := by
  unfold tapStrictFilterStep
  by_cases hne : found ≠ []
  · rw [if_pos hne]
    by_cases hf : found.filter (fun u => tapHostStr (pyLower u)) ≠ []
    · rw [if_pos hf]
      intro u hu
      exact (List.mem_filter.mp hu).2
    · rw [if_neg hf]
      exact h
  · rw [if_neg hne]
    exact h

theorem tapStrict_nodup (found : List String) (h : found.Nodup) :
    (tapStrictFilterStep found).Nodup := by
  unfold tapStrictFilterStep
  by_cases hne : found ≠ []
  · rw [if_pos hne]
    by_cases hf : found.filter (fun u => tapHostStr (pyLower u)) ≠ []
    · rw [if_pos hf]
      exact h.filter _
    · rw [if_neg hf]
      exact h
  · rw [if_neg hne]
    exact h

theorem finalFilterPred_tap {source : Option String} (hs : sourceIsTap source = true)
    (u : String) : finalFilterPred source u = tapHostStr (pyLower u) := by
  simp [finalFilterPred, hs]

theorem mainFinalize_tap_pred {source : Option String} (hs : sourceIsTap source = true)
    (cands2 f : List String) :
    ∀ u ∈ mainFinalize source cands2 f, tapHostStr (pyLower u) = true := by
  simp only [mainFinalize]
  have hlegacy : ∀ u ∈ tapStrictFilterStep (tapLegacyEffect cands2 []),
      tapHostStr (pyLower u) = true :=
    tapStrict_pred _ (tapLegacyEffect_pred cands2 [] (by simp))
  by_cases h1 : pydedup f ≠ []
  · rw [if_pos h1]
    by_cases hlen : ((pydedup f).filter (finalFilterPred source)).length <
        (pydedup f).length
    · rw [if_pos hlen]
      by_cases hz : (pydedup f).filter (finalFilterPred source) = [] ∧
          sourceIsTap source = true
      · rw [if_pos hz, hz.1]
        exact hlegacy
      · rw [if_neg hz]
        intro u hu
        have := (List.mem_filter.mp hu).2
        rw [finalFilterPred_tap hs u] at this
        exact this
    · rw [if_neg hlen]
      have hsub := List.filter_sublist (p := finalFilterPred source) (pydedup f)
      have hlen2 : ((pydedup f).filter (finalFilterPred source)).length =
          (pydedup f).length := by
        have := hsub.length_le
        omega
      have heq : (pydedup f).filter (finalFilterPred source) = pydedup f :=
        hsub.eq_of_length hlen2
      have hall : ∀ u ∈ pydedup f, finalFilterPred source u = true :=
        List.filter_eq_self.mp heq
      by_cases hz : pydedup f = [] ∧ sourceIsTap source = true
      · exact absurd hz.1 h1
      · rw [if_neg hz]
        intro u hu
        have := hall u hu
        rw [finalFilterPred_tap hs u] at this
        exact this
  · rw [if_neg h1]
    rw [Classical.not_not] at h1
    by_cases hz : pydedup f = [] ∧ sourceIsTap source = true
    · rw [if_pos hz, hz.1]
      exact hlegacy
    · rw [if_neg hz]
      intro u hu
      rw [h1] at hu
      simp at hu

theorem mainFinalize_nodup (source : Option String) (cands2 f : List String) :
    (mainFinalize source cands2 f).Nodup := by
  simp only [mainFinalize]
  have hded := pydedup_nodup f
  have hlegacy : (tapStrictFilterStep (tapLegacyEffect cands2 [])).Nodup :=
    tapStrict_nodup _ (tapLegacyEffect_nodup cands2 [] List.nodup_nil)
  by_cases h1 : pydedup f ≠ []
  · rw [if_pos h1]
    by_cases hlen : ((pydedup f).filter (finalFilterPred source)).length <
        (pydedup f).length
    · rw [if_pos hlen]
      by_cases hz : (pydedup f).filter (finalFilterPred source) = [] ∧
          sourceIsTap source = true
      · rw [if_pos hz, hz.1]
        exact hlegacy
      · rw [if_neg hz]
        exact hded.filter _
    · rw [if_neg hlen]
      by_cases hz : pydedup f = [] ∧ sourceIsTap source = true
      · exact absurd hz.1 h1
      · rw [if_neg hz]
        exact hded
  · rw [if_neg h1]
    rw [Classical.not_not] at h1
    by_cases hz : pydedup f = [] ∧ sourceIsTap source = true
    · rw [if_pos hz, hz.1]
      exact hlegacy
    · rw [if_neg hz]
      exact hded

theorem mainPhase_ok_shape {source : Option String} {env : ExtractEnv}
    {url : String} {st : XState} {l : List String} {st2 : XState} {site : RetSite}
    (h : mainPhase source env url st = Except.ok (l, st2, site)) :
    site = RetSite.mainSite ∧ ∃ f, l = mainFinalize source env.tapLegacyCands2 f := by
  simp only [mainPhase] at h
  split at h
  · exact absurd h (by simp)
  · split at h
    · exact absurd h (by simp)
    · split at h
      · split at h
        · exact absurd h (by simp)
        · simp only [mainWrapUp, Except.ok.injEq, Prod.mk.injEq] at h
          exact ⟨h.2.2.symm, _, h.1.symm⟩
      · simp only [mainWrapUp, Except.ok.injEq, Prod.mk.injEq] at h
        exact ⟨h.2.2.symm, _, h.1.symm⟩

theorem extractBody_ok_shape {env : ExtractEnv} {source : Option String}
    {url : String} {l : List String} {st : XState} {site : RetSite}
    (h : extractBody env source url = Except.ok (l, st, site)) :
    (site = RetSite.tapEarly ∧ sourceIsTap source = true ∧
      l = tapStrictFilterStep (tapLegacyEffect env.tapLegacyCands1 [])) ∨
    (site = RetSite.monEarly ∧ sourceIsMon source = true) ∨
    (site = RetSite.monLegacySite ∧ sourceIsMon source = true ∧ ∃ f, l = pydedup f) ∨
    (site = RetSite.mainSite ∧ ∃ f, l = mainFinalize source env.tapLegacyCands2 f) := by
  simp only [extractBody] at h
  by_cases htap : sourceIsTap source = true
  · rw [if_pos htap] at h
    by_cases hf1 : tapStrictFilterStep (tapLegacyEffect env.tapLegacyCands1 []) ≠ []
    · rw [if_pos hf1] at h
      simp only [Except.ok.injEq, Prod.mk.injEq] at h
      exact Or.inl ⟨h.2.2.symm, htap, h.1.symm⟩
    · rw [if_neg hf1] at h
      exact Or.inr (Or.inr (Or.inr (mainPhase_ok_shape h)))
  · rw [if_neg htap] at h
    by_cases hmon : sourceIsMon source = true
    · rw [if_pos hmon] at h
      split at h
      · exact absurd h (by simp)
      · simp only [Except.ok.injEq, Prod.mk.injEq] at h
        exact Or.inr (Or.inl ⟨h.2.2.symm, hmon⟩)
      · split at h
        · split at h
          · simp only [Except.ok.injEq, Prod.mk.injEq] at h
            exact Or.inr (Or.inr (Or.inl ⟨h.2.2.symm, hmon, _, h.1.symm⟩))
          · exact Or.inr (Or.inr (Or.inr (mainPhase_ok_shape h)))
        · exact Or.inr (Or.inr (Or.inr (mainPhase_ok_shape h)))
    · rw [if_neg hmon] at h
      exact Or.inr (Or.inr (Or.inr (mainPhase_ok_shape h)))

/-- C1 (amended): on every normal (non-exception) return of a TAP extraction,
every returned URL lies on a known Streamtape hosting domain (`streamtape`,
`tapecontent`, `streamta.pe` as substrings of the lowercased URL), for every
sequence of observed network URLs; the exception-handler return path is
exempt, as it returns the accumulated list without applying the strict
filter. -/
theorem c1_tap_allowlist (env : ExtractEnv) (url : String)
    (l : List String) (st : XState) (site : RetSite)
    (h : extractBody env (some "TAP") url = Except.ok (l, st, site)) :
    ∀ u ∈ l, tapHostStr (pyLower u) = true := by
  rcases extractBody_ok_shape h with ⟨_, _, hl⟩ | ⟨_, hmon⟩ | ⟨_, hmon, _⟩ | ⟨_, f, hl⟩
  · subst hl
    exact tapStrict_pred _ (tapLegacyEffect_pred _ [] (by simp))
  · exact absurd hmon (by decide)
  · exact absurd hmon (by decide)
  · subst hl
    exact mainFinalize_tap_pred (by decide) _ f

theorem c1_witness : tapHostStr (pyLower "https://streamtape.com/v") = true :=
  c1_tap_allowlist { tapLegacyCands1 := ["https://streamtape.com/v"] } "u"
    ["https://streamtape.com/v"]
    { found := ["https://streamtape.com/v"], attached := [], tracked := [],
      shouldStop := false, pageUrl := "" }
    RetSite.tapEarly rfl "https://streamtape.com/v" (by decide)

/-- C2 (amended): on every normal (non-exception) return of an extraction
run other than the direct-MON early return, the returned URL list contains
no duplicate strings; the direct-MON early return skips the deduplication
step and can return duplicates. -/
theorem c2_no_duplicates (env : ExtractEnv) (source : Option String) (url : String)
    (l : List String) (st : XState) (site : RetSite)
    (h : extractBody env source url = Except.ok (l, st, site))
    (hsite : site ≠ RetSite.monEarly) :
    l.Nodup := by
  rcases extractBody_ok_shape h with ⟨_, _, hl⟩ | ⟨hs, _⟩ | ⟨_, _, f, hl⟩ | ⟨_, f, hl⟩
  · subst hl
    exact tapStrict_nodup _ (tapLegacyEffect_nodup _ [] List.nodup_nil)
  · exact absurd hs hsite
  · subst hl
    exact pydedup_nodup f
  · subst hl
    exact mainFinalize_nodup source _ f

theorem c2_witness :
    (["https://streamtape.com/a", "https://streamtape.com/b"] : List String).Nodup :=
  c2_no_duplicates
    { tapLegacyCands1 := ["https://streamtape.com/a", "https://streamtape.com/b"] }
    (some "TAP") "u" ["https://streamtape.com/a", "https://streamtape.com/b"]
    { found := ["https://streamtape.com/a", "https://streamtape.com/b"],
      attached := [], tracked := [], shouldStop := false, pageUrl := "" }
    RetSite.tapEarly rfl (by decide)

/-! Supporting lemmas for the amended C7 statement: none of the sniffing
callbacks touches the listener bookkeeping, so `attached`/`tracked` evolve
only through the attach/remove/cleanup operations. -/

theorem listenerAction_fields (source : Option String) (t : LTag) (st : XState)
    (url : String) :
    (listenerAction source t st url).attached = st.attached ∧
    (listenerAction source t st url).tracked = st.tracked := by
  cases t <;>
    simp only [listenerAction, monSniffStep, legacyMonSniffStep, mainSniffStep] <;>
    split_ifs <;> exact ⟨rfl, rfl⟩

theorem deliverFold_fields (source : Option String) (ev : NetEvent) (ts : List LTag) :
    ∀ (st : XState),
      ((ts.foldl
          (fun s t => if fires t ev.isRequest then listenerAction source t s ev.url else s)
          st).attached = st.attached ∧
       (ts.foldl
          (fun s t => if fires t ev.isRequest then listenerAction source t s ev.url else s)
          st).tracked = st.tracked) := by
  induction ts with
  | nil => intro st; exact ⟨rfl, rfl⟩
  | cons t ts ih =>
    intro st
    simp only [List.foldl_cons]
    by_cases hf : fires t ev.isRequest = true
    · rw [if_pos hf]
      rcases ih (listenerAction source t st ev.url) with ⟨h1, h2⟩
      rcases listenerAction_fields source t st ev.url with ⟨g1, g2⟩
      exact ⟨h1.trans g1, h2.trans g2⟩
    · rw [if_neg hf]
      exact ih st

theorem deliverEvent_fields (source : Option String) (st : XState) (ev : NetEvent) :
    (deliverEvent source st ev).attached = st.attached ∧
    (deliverEvent source st ev).tracked = st.tracked :=
  deliverFold_fields source ev st.attached st

theorem deliverAll_fields (source : Option String) (evs : List NetEvent) :
    ∀ (st : XState),
      (deliverAll source st evs).attached = st.attached ∧
      (deliverAll source st evs).tracked = st.tracked := by
  induction evs with
  | nil => intro st; exact ⟨rfl, rfl⟩
  | cons ev evs ih =>
    intro st
    show ((evs.foldl (deliverEvent source) (deliverEvent source st ev)).attached = _ ∧ _)
    rcases ih (deliverEvent source st ev) with ⟨h1, h2⟩
    rcases deliverEvent_fields source st ev with ⟨g1, g2⟩
    exact ⟨h1.trans g1, h2.trans g2⟩

/-- The state embedded in the result of one activation attempt. -/
def attemptState : Except XState (XState × Bool) → XState
  | Except.ok (s, _) => s
  | Except.error s => s

/-- The state embedded in the result of the activation loop. -/
def loopState : Except XState XState → XState
  | Except.ok s => s
  | Except.error s => s

theorem framesFold_fields (frames : List (String × Option String)) :
    ∀ (st : XState),
      ((frames.foldl
          (fun s fr =>
            if containsSub fr.1 "streamtape" ∨ containsSub fr.1 "streamta.pe" then
              match fr.2 with
              | some c =>
                if pyStartsWith c "http" ∧ ¬ s.found.contains c then
                  { s with found := s.found ++ [c] }
                else s
              | none => s
            else s) st).attached = st.attached ∧
       (frames.foldl
          (fun s fr =>
            if containsSub fr.1 "streamtape" ∨ containsSub fr.1 "streamta.pe" then
              match fr.2 with
              | some c =>
                if pyStartsWith c "http" ∧ ¬ s.found.contains c then
                  { s with found := s.found ++ [c] }
                else s
              | none => s
            else s) st).tracked = st.tracked) := by
  induction frames with
  | nil => intro st; exact ⟨rfl, rfl⟩
  | cons fr frames ih =>
    intro st
    simp only [List.foldl_cons]
    rcases hstep :
        (if containsSub fr.1 "streamtape" ∨ containsSub fr.1 "streamta.pe" then
          match fr.2 with
          | some c =>
            if pyStartsWith c "http" ∧ ¬ st.found.contains c then
              { st with found := st.found ++ [c] }
            else st
          | none => st
        else st) with st'
    have hfields : st'.attached = st.attached ∧ st'.tracked = st.tracked := by
      rw [← hstep]
      split_ifs
      · rcases fr.2 with _ | c
        · exact ⟨rfl, rfl⟩
        · simp only []
          split_ifs <;> exact ⟨rfl, rfl⟩
      · exact ⟨rfl, rfl⟩
    rw [hstep]
    rcases ih st' with ⟨h1, h2⟩
    exact ⟨h1.trans hfields.1, h2.trans hfields.2⟩

theorem postActivation_fields (b : ButtonEnv) (isLast : Bool) (st : XState) :
    (attemptState (postActivation b isLast st)).attached = st.attached ∧
    (attemptState (postActivation b isLast st)).tracked = st.tracked := by
  simp only [postActivation]
  split_ifs <;>
    first
      | exact ⟨rfl, rfl⟩
      | exact framesFold_fields b.frames st

theorem runAttempt_fields (source : Option String) (url : String) (b : ButtonEnv)
    (isLast : Bool) (st : XState) :
    (attemptState (runAttempt source url b isLast st)).attached = st.attached ∧
    (attemptState (runAttempt source url b isLast st)).tracked = st.tracked := by
  have hd := deliverAll_fields source b.attemptEvents st
  have hpost : ∀ s' : XState, s'.attached = st.attached → s'.tracked = st.tracked →
      (attemptState (postActivation b isLast s')).attached = st.attached ∧
      (attemptState (postActivation b isLast s')).tracked = st.tracked := by
    intro s' hA hT
    exact ⟨(postActivation_fields b isLast s').1.trans hA,
           (postActivation_fields b isLast s').2.trans hT⟩
  simp only [runAttempt]
  split_ifs <;>
    first
      | exact ⟨rfl, rfl⟩
      | exact hd
      | exact hpost _ hd.1 hd.2
      | (rcases hv : b.videoSrc with _ | c <;>
          refine hpost _ ?_ ?_ <;>
          (try simp only []) <;> (try split_ifs) <;>
          first
            | exact hd.1
            | exact hd.2)

theorem activationLoop_fields (source : Option String) (url : String)
    (a1 a2 a3 : ButtonEnv) (st : XState) :
    (loopState (activationLoop source url a1 a2 a3 st)).attached = st.attached ∧
    (loopState (activationLoop source url a1 a2 a3 st)).tracked = st.tracked := by
  simp only [activationLoop]
  have h1 := runAttempt_fields source url a1 false st
  rcases hr1 : runAttempt source url a1 false st with s1 | ⟨s1, b1⟩ <;>
    rw [hr1] at h1
  · exact h1
  · cases b1
    · simp only []
      have h2 := runAttempt_fields source url a2 false s1
      rcases hr2 : runAttempt source url a2 false s1 with s2 | ⟨s2, b2⟩ <;>
        rw [hr2] at h2
      · exact ⟨h2.1.trans h1.1, h2.2.trans h1.2⟩
      · cases b2
        · simp only []
          have h3 := runAttempt_fields source url a3 true s2
          rcases hr3 : runAttempt source url a3 true s2 with s3 | ⟨s3, b3⟩ <;>
            rw [hr3] at h3
          · exact ⟨h3.1.trans (h2.1.trans h1.1), h3.2.trans (h2.2.trans h1.2)⟩
          · exact ⟨h3.1.trans (h2.1.trans h1.1), h3.2.trans (h2.2.trans h1.2)⟩
        · exact ⟨h2.1.trans h1.1, h2.2.trans h1.2⟩
    · exact h1

theorem activationPhase_fields (source : Option String) (env : ExtractEnv)
    (url : String) (st : XState) :
    (loopState (activationPhase source env url st)).attached = st.attached ∧
    (loopState (activationPhase source env url st)).tracked = st.tracked := by
  cases source with
  | none => exact ⟨rfl, rfl⟩
  | some s =>
    exact activationLoop_fields (some s) url env.attempt1 env.attempt2 env.attempt3 st

theorem erase_pair (x y : LTag) (A : List LTag) (h1 : x ∉ A) (h2 : y ∉ A) :
    ((A ++ [x, y]).erase x).erase y = A := by
  have e1 : (A ++ [x, y]).erase x = A ++ [y] := by
    rw [List.erase_append_right _ h1]
    congr 1
    exact List.erase_cons_head x [y]
  rw [e1, List.erase_append_right _ h2, List.erase_cons_head]
  simp

theorem mainPhase_fields (source : Option String) (env : ExtractEnv) (url : String)
    (st : XState) (hA1 : LTag.mainReq ∉ st.attached) (hA2 : LTag.mainResp ∉ st.attached)
    (hT : st.tracked = []) :
    (∀ l s site, mainPhase source env url st = Except.ok (l, s, site) →
       s.attached = st.attached ∧ s.tracked = []) ∧
    (∀ s, mainPhase source env url st = Except.error s →
       (handlerCleanup s).attached = st.attached) := by
  have hs1A : (attachListeners st [LTag.mainReq, LTag.mainResp] true).attached
      = st.attached ++ [LTag.mainReq, LTag.mainResp] := rfl
  have hs1T : (attachListeners st [LTag.mainReq, LTag.mainResp] true).tracked
      = [LTag.mainReq, LTag.mainResp] := by
    show st.tracked ++ [LTag.mainReq, LTag.mainResp] = _
    rw [hT, List.nil_append]
  have hclean : ∀ s' : XState,
      s'.attached = st.attached ++ [LTag.mainReq, LTag.mainResp] →
      s'.tracked = [LTag.mainReq, LTag.mainResp] →
      (handlerCleanup s').attached = st.attached := by
    intro s' hA hTr
    show s'.tracked.foldl (fun a t => a.erase t) s'.attached = st.attached
    rw [hA, hTr]
    exact erase_pair LTag.mainReq LTag.mainResp st.attached hA1 hA2
  have hwrap : ∀ s' : XState,
      s'.attached = st.attached ++ [LTag.mainReq, LTag.mainResp] →
      ∀ l s site, mainWrapUp source env s' = Except.ok (l, s, site) →
        s.attached = st.attached ∧ s.tracked = [] := by
    intro s' hA l s site h
    simp only [mainWrapUp, Except.ok.injEq, Prod.mk.injEq] at h
    rcases h with ⟨h1, h2, h3⟩
    rw [← h2]
    refine ⟨?_, rfl⟩
    show [LTag.mainReq, LTag.mainResp].foldl (fun a t => a.erase t) s'.attached
        = st.attached
    rw [hA]
    exact erase_pair LTag.mainReq LTag.mainResp st.attached hA1 hA2
  have hdm := deliverAll_fields source env.mainGotoEvents
    (attachListeners st [LTag.mainReq, LTag.mainResp] true)
  constructor
  · intro l s site h
    simp only [mainPhase] at h
    split at h
    · exact absurd h (by simp)
    · split at h
      · exact absurd h (by simp)
      · rename_i s' heq
        have hact := activationPhase_fields source env url
          { deliverAll source (attachListeners st [LTag.mainReq, LTag.mainResp] true)
              env.mainGotoEvents with pageUrl := url }
        rw [heq] at hact
        have hsa : s'.attached = st.attached ++ [LTag.mainReq, LTag.mainResp] :=
          hact.1.trans (hdm.1.trans hs1A)
        split at h
        · split at h
          · exact absurd h (by simp)
          · exact hwrap _ ((deliverAll_fields source env.passiveEvents s').1.trans hsa)
              l s site h
        · exact hwrap s' hsa l s site h
  · intro s h
    simp only [mainPhase] at h
    split at h
    · injection h with h2
      subst h2
      exact hclean _ (hdm.1.trans hs1A) (hdm.2.trans hs1T)
    · split at h
      · rename_i s' heq
        injection h with h2
        subst h2
        have hact := activationPhase_fields source env url
          { deliverAll source (attachListeners st [LTag.mainReq, LTag.mainResp] true)
              env.mainGotoEvents with pageUrl := url }
        rw [heq] at hact
        exact hclean s' (hact.1.trans (hdm.1.trans hs1A))
          (hact.2.trans (hdm.2.trans hs1T))
      · rename_i s' heq
        have hact := activationPhase_fields source env url
          { deliverAll source (attachListeners st [LTag.mainReq, LTag.mainResp] true)
              env.mainGotoEvents with pageUrl := url }
        rw [heq] at hact
        have hsa : s'.attached = st.attached ++ [LTag.mainReq, LTag.mainResp] :=
          hact.1.trans (hdm.1.trans hs1A)
        have hst : s'.tracked = [LTag.mainReq, LTag.mainResp] :=
          hact.2.trans (hdm.2.trans hs1T)
        split at h
        · split at h
          · injection h with h2
            subst h2
            exact hclean _ ((deliverAll_fields source env.passiveEvents s').1.trans hsa)
              ((deliverAll_fields source env.passiveEvents s').2.trans hst)
          · exact absurd h (by simp [mainWrapUp])
        · exact absurd h (by simp [mainWrapUp])

theorem monPhase_fields (source : Option String) (menv : MonEnv) (url : String)
    (st0 : XState) (hA : st0.attached = []) (hT : st0.tracked = []) :
    (∀ l s, monPhase source menv url st0 = MonFlow.ret l s → s.attached = []) ∧
    (∀ s, monPhase source menv url st0 = MonFlow.cont s →
       s.attached = [] ∧ s.tracked = []) ∧
    (∀ s, monPhase source menv url st0 = MonFlow.err s →
       s.attached = [LTag.monReq, LTag.monResp] ∧
       s.tracked = [LTag.monReq, LTag.monResp]) := by
  have hs1A : (attachListeners st0 [LTag.monReq, LTag.monResp] true).attached
      = [LTag.monReq, LTag.monResp] := by
    show st0.attached ++ _ = _
    rw [hA, List.nil_append]
  have hs1T : (attachListeners st0 [LTag.monReq, LTag.monResp] true).tracked
      = [LTag.monReq, LTag.monResp] := by
    show st0.tracked ++ _ = _
    rw [hT, List.nil_append]
  have hd1 := deliverAll_fields source menv.directEvents
    (attachListeners st0 [LTag.monReq, LTag.monResp] true)
  have hrec : ∀ s' : XState, s'.attached = [LTag.monReq, LTag.monResp] →
      s'.tracked = [LTag.monReq, LTag.monResp] →
      (∀ l s, monRecovery source menv url s' = MonFlow.ret l s → s.attached = []) ∧
      (∀ s, monRecovery source menv url s' = MonFlow.cont s →
         s.attached = [] ∧ s.tracked = []) ∧
      (∀ s, monRecovery source menv url s' = MonFlow.err s →
         s.attached = [LTag.monReq, LTag.monResp] ∧
         s.tracked = [LTag.monReq, LTag.monResp]) := by
    intro s' hA' hT'
    have hd := deliverAll_fields source menv.recoveryGotoEvents s'
    refine ⟨?_, ?_, ?_⟩
    · intro l s h
      simp only [monRecovery] at h
      split at h
      · exact MonFlow.noConfusion h
      · exact MonFlow.noConfusion h
    · intro s h
      simp only [monRecovery] at h
      split at h
      · exact MonFlow.noConfusion h
      · injection h with h2
        subst h2
        constructor
        · show [LTag.monReq, LTag.monResp].foldl (fun a t => a.erase t)
            (deliverAll source s' menv.recoveryGotoEvents).attached = []
          rw [hd.1, hA']
          rfl
        · rfl
    · intro s h
      simp only [monRecovery] at h
      split at h
      · injection h with h2
        subst h2
        exact ⟨hd.1.trans hA', hd.2.trans hT'⟩
      · exact MonFlow.noConfusion h
  have hfstA : ∀ s'' : XState, s''.attached =
      (deliverAll source (attachListeners st0 [LTag.monReq, LTag.monResp] true)
        menv.directEvents).attached → s''.attached = [LTag.monReq, LTag.monResp] :=
    fun s'' hh => hh.trans (hd1.1.trans hs1A)
  have hfstT : ∀ s'' : XState, s''.tracked =
      (deliverAll source (attachListeners st0 [LTag.monReq, LTag.monResp] true)
        menv.directEvents).tracked → s''.tracked = [LTag.monReq, LTag.monResp] :=
    fun s'' hh => hh.trans (hd1.2.trans hs1T)
  have hrecA := hrec
    (deliverAll source (attachListeners st0 [LTag.monReq, LTag.monResp] true)
      menv.directEvents) (hfstA _ rfl) (hfstT _ rfl)
  have hrecB := hrec
    { deliverAll source (attachListeners st0 [LTag.monReq, LTag.monResp] true)
        menv.directEvents with pageUrl := monUrl url } (hfstA _ rfl) (hfstT _ rfl)
  have hrecC := hrec
    (deliverAll source
      { deliverAll source (attachListeners st0 [LTag.monReq, LTag.monResp] true)
          menv.directEvents with pageUrl := monUrl url } menv.fallbackGotoEvents)
    (hfstA _ (deliverAll_fields source menv.fallbackGotoEvents
      { deliverAll source (attachListeners st0 [LTag.monReq, LTag.monResp] true)
          menv.directEvents with pageUrl := monUrl url }).1)
    (hfstT _ (deliverAll_fields source menv.fallbackGotoEvents
      { deliverAll source (attachListeners st0 [LTag.monReq, LTag.monResp] true)
          menv.directEvents with pageUrl := monUrl url }).2)
  refine ⟨?_, ?_, ?_⟩
  · intro l s h
    simp only [monPhase] at h
    split at h
    · exact hrecA.1 l s h
    · split at h
      · exact hrecB.1 l s h
      · split at h
        · injection h with hl hs
          subst hs
          show [LTag.monReq, LTag.monResp].foldl (fun a t => a.erase t)
            (deliverAll source (attachListeners st0 [LTag.monReq, LTag.monResp] true)
              menv.directEvents).attached = []
          rw [hd1.1, hs1A]
          rfl
        · split at h
          · exact hrecC.1 l s h
          · exact MonFlow.noConfusion h
  · intro s h
    simp only [monPhase] at h
    split at h
    · exact hrecA.2.1 s h
    · split at h
      · exact hrecB.2.1 s h
      · split at h
        · exact MonFlow.noConfusion h
        · split at h
          · exact hrecC.2.1 s h
          · injection h with h2
            subst h2
            constructor
            · show [LTag.monReq, LTag.monResp].foldl (fun a t => a.erase t)
                (deliverAll source
                  { deliverAll source
                      (attachListeners st0 [LTag.monReq, LTag.monResp] true)
                      menv.directEvents with pageUrl := monUrl url }
                  menv.fallbackGotoEvents).attached = []
              rw [(deliverAll_fields source menv.fallbackGotoEvents
                { deliverAll source
                    (attachListeners st0 [LTag.monReq, LTag.monResp] true)
                    menv.directEvents with pageUrl := monUrl url }).1]
              show [LTag.monReq, LTag.monResp].foldl (fun a t => a.erase t)
                (deliverAll source
                  (attachListeners st0 [LTag.monReq, LTag.monResp] true)
                  menv.directEvents).attached = []
              rw [hd1.1, hs1A]
              rfl
            · rfl
  · intro s h
    simp only [monPhase] at h
    split at h
    · exact hrecA.2.2 s h
    · split at h
      · exact hrecB.2.2 s h
      · split at h
        · exact MonFlow.noConfusion h
        · split at h
          · exact hrecC.2.2 s h
          · exact MonFlow.noConfusion h

theorem legacyMonPhase_fields (source : Option String) (lenv : LegacyMonEnv)
    (url : String) (st : XState) (hA : st.attached = []) (hT : st.tracked = []) :
    ((legacyMonPhase source lenv url st).attached = [] ∨
     (legacyMonPhase source lenv url st).attached = [LTag.legacyReq, LTag.legacyResp]) ∧
    (legacyMonPhase source lenv url st).tracked = [] := by
  have hs1A : (attachListeners st [LTag.legacyReq, LTag.legacyResp] false).attached
      = [LTag.legacyReq, LTag.legacyResp] := by
    show st.attached ++ _ = _
    rw [hA, List.nil_append]
  have hs1T : (attachListeners st [LTag.legacyReq, LTag.legacyResp] false).tracked
      = [] := hT
  have hrest : ∀ s' : XState, s'.attached = [LTag.legacyReq, LTag.legacyResp] →
      s'.tracked = [] →
      ((legacyMonRest source lenv s').attached = [] ∨
       (legacyMonRest source lenv s').attached = [LTag.legacyReq, LTag.legacyResp]) ∧
      (legacyMonRest source lenv s').tracked = [] := by
    intro s' hA' hT'
    have hd1 := deliverAll_fields source lenv.clickEvents s'
    have hd2 := deliverAll_fields source lenv.waitEvents
      (deliverAll source s' lenv.clickEvents)
    simp only [legacyMonRest]
    split_ifs
    · exact ⟨Or.inr (hd2.1.trans (hd1.1.trans hA')), hd2.2.trans (hd1.2.trans hT')⟩
    · constructor
      · refine Or.inl ?_
        show [LTag.legacyReq, LTag.legacyResp].foldl (fun a t => a.erase t)
          (deliverAll source (deliverAll source s' lenv.clickEvents)
            lenv.waitEvents).attached = []
        rw [hd2.1, hd1.1, hA']
        rfl
      · exact hd2.2.trans (hd1.2.trans hT')
  simp only [legacyMonPhase]
  split_ifs
  · exact ⟨Or.inr ((deliverAll_fields source lenv.gotoEvents
      (attachListeners st [LTag.legacyReq, LTag.legacyResp] false)).1.trans hs1A),
      (deliverAll_fields source lenv.gotoEvents
        (attachListeners st [LTag.legacyReq, LTag.legacyResp] false)).2.trans hs1T⟩
  · exact hrest _ ((deliverAll_fields source lenv.gotoEvents
      (attachListeners st [LTag.legacyReq, LTag.legacyResp] false)).1.trans hs1A)
      ((deliverAll_fields source lenv.gotoEvents
        (attachListeners st [LTag.legacyReq, LTag.legacyResp] false)).2.trans hs1T)
  · exact hrest _ hs1A hs1T

theorem extractBody_attached (env : ExtractEnv) (source : Option String) (url : String) :
    (∀ l s site, extractBody env source url = Except.ok (l, s, site) →
       s.attached = [] ∨ s.attached = [LTag.legacyReq, LTag.legacyResp]) ∧
    (∀ s, extractBody env source url = Except.error s →
       (handlerCleanup s).attached = [] ∨
       (handlerCleanup s).attached = [LTag.legacyReq, LTag.legacyResp]) := by
  have hmain : ∀ st : XState,
      (st.attached = [] ∨ st.attached = [LTag.legacyReq, LTag.legacyResp]) →
      st.tracked = [] →
      (∀ l s site, mainPhase source env url st = Except.ok (l, s, site) →
         s.attached = [] ∨ s.attached = [LTag.legacyReq, LTag.legacyResp]) ∧
      (∀ s, mainPhase source env url st = Except.error s →
         (handlerCleanup s).attached = [] ∨
         (handlerCleanup s).attached = [LTag.legacyReq, LTag.legacyResp]) := by
    intro st hA hT
    have hnotin1 : LTag.mainReq ∉ st.attached := by
      rcases hA with hA | hA <;> rw [hA] <;> decide
    have hnotin2 : LTag.mainResp ∉ st.attached := by
      rcases hA with hA | hA <;> rw [hA] <;> decide
    have hmf := mainPhase_fields source env url st hnotin1 hnotin2 hT
    refine ⟨?_, ?_⟩
    · intro l s site h
      rcases hA with hA | hA
      · exact Or.inl ((hmf.1 l s site h).1.trans hA)
      · exact Or.inr ((hmf.1 l s site h).1.trans hA)
    · intro s h
      rcases hA with hA | hA
      · exact Or.inl ((hmf.2 s h).trans hA)
      · exact Or.inr ((hmf.2 s h).trans hA)
  constructor
  · intro l s site h
    simp only [extractBody] at h
    by_cases htap : sourceIsTap source = true
    · rw [if_pos htap] at h
      by_cases hf1 : tapStrictFilterStep (tapLegacyEffect env.tapLegacyCands1 []) ≠ []
      · rw [if_pos hf1] at h
        simp only [Except.ok.injEq, Prod.mk.injEq] at h
        refine Or.inl ?_
        rw [← h.2.1]
      · rw [if_neg hf1] at h
        exact (hmain _ (Or.inl rfl) rfl).1 l s site h
    · rw [if_neg htap] at h
      by_cases hmon : sourceIsMon source = true
      · rw [if_pos hmon] at h
        have hmp := monPhase_fields source env.mon url
          { found := [], attached := [], tracked := [], shouldStop := false,
            pageUrl := env.initialPageUrl } rfl rfl
        split at h
        · exact Except.noConfusion h
        · rename_i l' s' heq
          simp only [Except.ok.injEq, Prod.mk.injEq] at h
          refine Or.inl ?_
          rw [← h.2.1]
          exact hmp.1 l' s' heq
        · rename_i s' heq
          have hcont := hmp.2.1 s' heq
          split at h
          · have hlf := legacyMonPhase_fields source env.legacyMon url s'
              hcont.1 hcont.2
            split at h
            · simp only [Except.ok.injEq, Prod.mk.injEq] at h
              rw [← h.2.1]
              exact hlf.1
            · exact (hmain _ hlf.1 hlf.2).1 l s site h
          · exact (hmain s' (Or.inl hcont.1) hcont.2).1 l s site h
      · rw [if_neg hmon] at h
        exact (hmain _ (Or.inl rfl) rfl).1 l s site h
  · intro s h
    simp only [extractBody] at h
    by_cases htap : sourceIsTap source = true
    · rw [if_pos htap] at h
      by_cases hf1 : tapStrictFilterStep (tapLegacyEffect env.tapLegacyCands1 []) ≠ []
      · rw [if_pos hf1] at h
        exact Except.noConfusion h
      · rw [if_neg hf1] at h
        exact (hmain _ (Or.inl rfl) rfl).2 s h
    · rw [if_neg htap] at h
      by_cases hmon : sourceIsMon source = true
      · rw [if_pos hmon] at h
        have hmp := monPhase_fields source env.mon url
          { found := [], attached := [], tracked := [], shouldStop := false,
            pageUrl := env.initialPageUrl } rfl rfl
        split at h
        · rename_i s' heq
          injection h with h2
          subst h2
          have herr := hmp.2.2 s' heq
          refine Or.inl ?_
          show s'.tracked.foldl (fun a t => a.erase t) s'.attached = []
          rw [herr.1, herr.2]
          rfl
        · exact Except.noConfusion h
        · rename_i s' heq
          have hcont := hmp.2.1 s' heq
          split at h
          · have hlf := legacyMonPhase_fields source env.legacyMon url s'
              hcont.1 hcont.2
            split at h
            · exact Except.noConfusion h
            · exact (hmain _ hlf.1 hlf.2).2 s h
          · exact (hmain s' (Or.inl hcont.1) hcont.2).2 s h
      · rw [if_neg hmon] at h
        exact (hmain _ (Or.inl rfl) rfl).2 s h

/-- C7 (amended): listener registration and removal are symmetric for the
direct-MON sniffers and the main-flow sniffers on every return path,
including exception paths (the outer handler removes every tracked
listener); the only possible asymmetry is the legacy MON extractor's own
pair of listeners, which are tracked only in a local list and remain
registered when its internal wait raises — so at the end of every run the
registered listeners are either none or exactly the legacy MON pair. -/
theorem c7_listener_symmetry (env : ExtractEnv) (source : Option String)
    (url : String) (pageInit : Bool) :
    (extractRun env source url pageInit).2.attached = [] ∨
    (extractRun env source url pageInit).2.attached =
      [LTag.legacyReq, LTag.legacyResp] := by
  cases pageInit with
  | false => exact Or.inl rfl
  | true =>
    rcases hb : extractBody env source url with s | r
    · have hr : extractRun env source url true =
          ((handlerCleanup s).found, handlerCleanup s) := by
        simp only [extractRun]
        rw [if_pos trivial, hb]
      rw [hr]
      exact (extractBody_attached env source url).2 s hb
    · have hr : extractRun env source url true = (r.1, r.2.1) := by
        simp only [extractRun]
        rw [if_pos trivial, hb]
      rw [hr]
      exact (extractBody_attached env source url).1 r.1 r.2.1 r.2.2 hb

end Kukaj
